import Mathlib

/-
Verification of the roottest verification engine against its specification.

The Rust sources are embedded shallowly:
  * src/difference.rs : the line-diff type, the hunk engine (hunkify_diff),
    diff_nonempty, print_diff, and the structural differ
    FileNodeDiff::from_file_nodes;
  * src/results.rs : FileNode, Permissions, TestFieldComparison,
    RootTestResult::new and upgrade_to_ok;
  * src/tests.rs : RootTest::run, modelled as a trace of external effects.

Modelling conventions:
  * machine integers are Nat / Int (no overflow is relevant here);
  * Rust byte strings (Vec<u8>, String, PathBuf, OsString) are List Nat of
    byte values; Rust String comparison is byte equality, PathBuf ordering is
    lexicographic byte order (bytesLt below);
  * BTreeMap is a key-sorted association list; the source's
    intersection-then-leftovers loop over two BTreeMaps is realised as a
    sorted merge, which produces the same key-sorted mapping;
  * panics (unwrap, expect, assert!) are modelled by Option results, none
    meaning the panic;
  * fallible IO is injected through explicit collaborator outcomes and the
    effects are recorded as an event trace.
-/

/-- The diff crate's Result type for one line of a line diff: Left is a line
only in the left (actual) text, Right only in the right (expected) text,
Both a line present in both. -/
inductive DiffRes (α : Type) where
  | Left (l : α)
  | Right (r : α)
  | Both (l r : α)
deriving DecidableEq, Repr

/-- Translation of is_different in src/difference.rs: any non-Both line. -/
def isDifferent {α : Type} : DiffRes α → Bool
  | .Both _ _ => false
  | .Left _ => true
  | .Right _ => true

/-- Translation of diff_nonempty in src/difference.rs: scans for the first
non-Both line. -/
def diff_nonempty {α : Type} : List (DiffRes α) → Bool
  | [] => false
  | .Both _ _ :: rest => diff_nonempty rest
  | .Left _ :: _ => true
  | .Right _ :: _ => true

/-- One hunk accumulator: (start left line, start right line, operations),
as in the Rust tuple (usize, usize, Diff). -/
abbrev HunkAcc (α : Type) := Nat × Nat × List (DiffRes α)

/-- The push onto current_hunk used for changed lines and leading context in
hunkify_diff: open a hunk at the current line numbers if none is open, then
append the line. -/
def appendCur {α : Type} (ll rl : Nat) (line : DiffRes α) :
    Option (HunkAcc α) → HunkAcc α
  | none => (ll, rl, [line])
  | some (l, r, ops) => (l, r, ops ++ [line])

/-- The loop of hunkify_diff in src/difference.rs. prev is the reversed list
of already processed lines (so prev.take extra is the backward context window
diff[position-extra .. position]), rest the remaining lines (so
rest.take (extra+1) is the forward window diff[position ..= position+extra]).
ll and rl are the 1-based left and right line counters, cur the open hunk,
hunks the emitted hunks. The unwrap on current_hunk in the trailing-context
branch is modelled by returning none when no hunk is open there. -/
def hunkAux {α : Type} (extra : Nat) :
    List (DiffRes α) → List (DiffRes α) → Nat → Nat →
    Option (HunkAcc α) → List (HunkAcc α) → Option (List (HunkAcc α))
  | _, [], _, _, cur, hunks => some (hunks ++ cur.toList)
  | prev, .Left a :: rest, ll, rl, cur, hunks =>
    hunkAux extra (.Left a :: prev) rest (ll + 1) rl
      (some (appendCur ll rl (.Left a) cur)) hunks
  | prev, .Right a :: rest, ll, rl, cur, hunks =>
    hunkAux extra (.Right a :: prev) rest ll (rl + 1)
      (some (appendCur ll rl (.Right a) cur)) hunks
  | prev, .Both a b :: rest, ll, rl, cur, hunks =>
    if ((DiffRes.Both a b :: rest).take (extra + 1)).any isDifferent then
      hunkAux extra (.Both a b :: prev) rest (ll + 1) (rl + 1)
        (some (appendCur ll rl (.Both a b) cur)) hunks
    else if (prev.take extra).any isDifferent then
      match cur with
      | some (l, r, ops) =>
        hunkAux extra (.Both a b :: prev) rest (ll + 1) (rl + 1)
          (some (l, r, ops ++ [.Both a b])) hunks
      | none => none
    else
      hunkAux extra (.Both a b :: prev) rest (ll + 1) (rl + 1)
        none (hunks ++ cur.toList)

/-- Translation of hunkify_diff in src/difference.rs (none = the unwrap
panicked, which the totality lemma below rules out). -/
def hunkify_diff {α : Type} (diff : List (DiffRes α)) (extra_lines : Nat) :
    Option (List (HunkAcc α)) :=
  hunkAux extra_lines [] diff 1 1 none []

/-- Translation of print_diff in src/difference.rs, keeping its computed
structure: the last hunk is popped (expect "at least one hunk" = none when
there is no hunk), the digit width is sized from the last hunk, and the
hunks are printed in order. The returned value records the printed hunks and
the digit width. -/
def print_diff {α : Type} (diff : List (DiffRes α)) (extra_lines : Nat) :
    Option (List (HunkAcc α) × HunkAcc α × Nat) :=
  match hunkify_diff diff extra_lines with
  | none => none
  | some hs =>
    match hs.getLast? with
    | none => none
    | some last =>
      let max_possible_line := max last.1 last.2.1 + last.2.2.length
      let max_possible_digits := (toString max_possible_line).length
      some (hs.dropLast, last, max_possible_digits)

/-- Tag a line with its position, preserving the constructor. Used to state
which input position lands in which hunk. -/
def retag {α : Type} (p : Nat) : DiffRes α → DiffRes (α × Nat)
  | .Left a => .Left (a, p)
  | .Right a => .Right (a, p)
  | .Both a b => .Both (a, p) (b, p)

/-- The position tag of a tagged line. -/
def tagOf {α : Type} : DiffRes (α × Nat) → Nat
  | .Left (_, p) => p
  | .Right (_, p) => p
  | .Both (_, p) _ => p

/-- Tag every line of a diff with its position, starting at q. -/
def indexFrom {α : Type} (q : Nat) : List (DiffRes α) → List (DiffRes (α × Nat))
  | [] => []
  | x :: xs => retag q x :: indexFrom (q + 1) xs

/-- Tag every line of a diff with its 0-based position. -/
def index {α : Type} (d : List (DiffRes α)) : List (DiffRes (α × Nat)) :=
  indexFrom 0 d

/-- The operations stored in an optional open hunk. -/
def curOps {α : Type} : Option (HunkAcc α) → List (DiffRes α)
  | none => []
  | some c => c.2.2

/-- All operations of a hunk list, in emission order. -/
def hunkOps {α : Type} (hs : List (HunkAcc α)) : List (DiffRes α) :=
  (hs.map (fun h => h.2.2)).flatten

/-- The changed (Left or Right) operations of a line list, in order. -/
def changesOf {α : Type} (l : List (DiffRes α)) : List (DiffRes α) :=
  l.filter isDifferent

/-- The strict order on hunks used to state that hunks are emitted in
increasing position order: both start line numbers increase. -/
def hunkLt {α : Type} (h k : HunkAcc α) : Prop :=
  h.1 < k.1 ∧ h.2.1 < k.2.1

/-- The invariant that makes the unwrap in hunkify_diff safe: whenever the
backward context window contains a change, a hunk is open. -/
def hunkInv {α : Type} (extra : Nat) (prev : List (DiffRes α))
    (cur : Option (HunkAcc α)) : Prop :=
  (prev.take extra).any isDifferent = true → cur.isSome = true

/-- Lexicographic order on byte lists, modelling the Ord of Rust PathBuf
keys in the BTreeMap of directory children. -/
def bytesLt : List Nat → List Nat → Bool
  | [], [] => false
  | [], _ :: _ => true
  | _ :: _, [] => false
  | a :: as, b :: bs => if a < b then true else if b < a then false else bytesLt as bs

/-- Permissions from src/results.rs: mode, uid, gid. -/
structure Permissions where
  mode : Nat
  uid : Nat
  gid : Nat
deriving DecidableEq, Repr

/-- TestFieldComparison from src/results.rs. -/
inductive TestFieldComparison (L R : Type) where
  | Identical
  | Differs (l : L) (r : R)
deriving DecidableEq, Repr

/-- Translation of TestFieldComparison::identical. -/
def TestFieldComparison.identical {L R : Type} : TestFieldComparison L R → Bool
  | .Identical => true
  | .Differs _ _ => false

/-- FileNode from src/results.rs. Contents, symlink targets and child names
are byte lists; the BTreeMap of children is a key-sorted association list. -/
inductive FileNode where
  | File (contents : List Nat) (permissions : Permissions)
  | Directory (children : List (List Nat × FileNode)) (permissions : Permissions)
  | SymbolicLink (target : List Nat) (permissions : Permissions)

/-- Translation of FileNode::node_type. -/
def FileNode.node_type : FileNode → String
  | .File _ _ => "file"
  | .Directory _ _ => "directory"
  | .SymbolicLink _ _ => "symbolic link"

mutual

/-- Structural equality of FileNodes, modelling the derived PartialEq used
by root == root_after in RootTestResult::new. -/
def FileNode.beq : FileNode → FileNode → Bool
  | .File c1 p1, .File c2 p2 => decide (c1 = c2) && decide (p1 = p2)
  | .Directory ch1 p1, .Directory ch2 p2 => FileNode.beqChildren ch1 ch2 && decide (p1 = p2)
  | .SymbolicLink t1 p1, .SymbolicLink t2 p2 => decide (t1 = t2) && decide (p1 = p2)
  | .File _ _, .Directory _ _ => false
  | .File _ _, .SymbolicLink _ _ => false
  | .Directory _ _, .File _ _ => false
  | .Directory _ _, .SymbolicLink _ _ => false
  | .SymbolicLink _ _, .File _ _ => false
  | .SymbolicLink _ _, .Directory _ _ => false

/-- Structural equality of child maps (equal keys, equal values, in order). -/
def FileNode.beqChildren : List (List Nat × FileNode) → List (List Nat × FileNode) → Bool
  | [], [] => true
  | (k1, v1) :: r1, (k2, v2) :: r2 =>
    decide (k1 = k2) && FileNode.beq v1 v2 && FileNode.beqChildren r1 r2
  | [], _ :: _ => false
  | _ :: _, [] => false

end

/-- UTF-8 continuation byte. -/
def isCont (b : Nat) : Bool := 0x80 ≤ b && b ≤ 0xBF

/-- UTF-8 validity of a byte list, following the table enforced by Rust's
String::from_utf8 (RFC 3629: no overlong forms, no surrogates, max U+10FFFF). -/
def validUtf8 : List Nat → Bool
  | [] => true
  | b :: r =>
    if b ≤ 0x7F then validUtf8 r
    else if 0xC2 ≤ b && b ≤ 0xDF then
      match r with
      | c1 :: r2 => isCont c1 && validUtf8 r2
      | [] => false
    else if b = 0xE0 then
      match r with
      | c1 :: c2 :: r2 => (0xA0 ≤ c1 && c1 ≤ 0xBF) && isCont c2 && validUtf8 r2
      | _ => false
    else if (0xE1 ≤ b && b ≤ 0xEC) || b = 0xEE || b = 0xEF then
      match r with
      | c1 :: c2 :: r2 => isCont c1 && isCont c2 && validUtf8 r2
      | _ => false
    else if b = 0xED then
      match r with
      | c1 :: c2 :: r2 => (0x80 ≤ c1 && c1 ≤ 0x9F) && isCont c2 && validUtf8 r2
      | _ => false
    else if b = 0xF0 then
      match r with
      | c1 :: c2 :: c3 :: r2 => (0x90 ≤ c1 && c1 ≤ 0xBF) && isCont c2 && isCont c3 && validUtf8 r2
      | _ => false
    else if 0xF1 ≤ b && b ≤ 0xF3 then
      match r with
      | c1 :: c2 :: c3 :: r2 => isCont c1 && isCont c2 && isCont c3 && validUtf8 r2
      | _ => false
    else if b = 0xF4 then
      match r with
      | c1 :: c2 :: c3 :: r2 => (0x80 ≤ c1 && c1 ≤ 0x8F) && isCont c2 && isCont c3 && validUtf8 r2
      | _ => false
    else false

/-- Rust's String::from_utf8 on a byte list: the same bytes when they are
valid UTF-8 (a Rust String is its UTF-8 bytes), none otherwise. -/
def from_utf8 (s : List Nat) : Option (List Nat) :=
  if validUtf8 s then some s else none

/-- Split a byte list at every 0x0A byte (exact splitter; the byte 0x0A
never occurs inside a multi-byte UTF-8 sequence). -/
def splitNl : List Nat → List (List Nat)
  | [] => [[]]
  | b :: rest =>
    if b = 10 then [] :: splitNl rest
    else
      match splitNl rest with
      | [] => [[b]]
      | piece :: more => (b :: piece) :: more

/-- Strip one trailing carriage return, as Rust str::lines does for a line
terminated by a CRLF ending. -/
def stripCR (l : List Nat) : List Nat :=
  match l.getLast? with
  | some 13 => l.dropLast
  | _ => l

/-- Modelled from the spec: the line splitting used by the external diff
crate's lines function, which collects Rust str::lines. Lines end at a
newline or CRLF; the final line ending is optional, so a text with and
without a final newline yields the same lines. -/
def rustLines (s : List Nat) : List (List Nat) :=
  let parts := splitNl s
  let termd := parts.dropLast.map stripCR
  if s = [] then []
  else if s.getLast? = some 10 then termd
  else termd ++ [parts.getLastD []]

/-- Modelled from the spec: length of a longest common subsequence, the
quantity a Myers-style minimal alignment preserves. Fuel-based so that it
reduces in the kernel; the fuel bound used by callers always suffices. -/
def lcsLenF {β : Type} [DecidableEq β] : Nat → List β → List β → Nat
  | 0, _, _ => 0
  | _ + 1, [], _ => 0
  | _ + 1, _ :: _, [] => 0
  | n + 1, x :: xs, y :: ys =>
    if x = y then lcsLenF n xs ys + 1
    else max (lcsLenF n xs (y :: ys)) (lcsLenF n (x :: xs) ys)

/-- Modelled from the spec: a classic Myers-style sequence alignment (the
external diff crate's algorithm), producing Both for aligned equal elements
and Left/Right for deletions/insertions, minimising edits via LCS length.
Fuel-based so that it reduces in the kernel. -/
def diffListsF {β : Type} [DecidableEq β] : Nat → List β → List β → List (DiffRes β)
  | 0, _, _ => []
  | _ + 1, [], ys => ys.map (fun y => .Right y)
  | n + 1, x :: xs, [] => .Left x :: diffListsF n xs []
  | n + 1, x :: xs, y :: ys =>
    if x = y then .Both x y :: diffListsF n xs ys
    else if lcsLenF n (x :: xs) ys ≤ lcsLenF n xs (y :: ys)
      then .Left x :: diffListsF n xs (y :: ys)
      else .Right y :: diffListsF n (x :: xs) ys

/-- Modelled from the spec: diff::lines(actual, expected) as used by
from_file_nodes, a Myers-style alignment over the str::lines split texts. -/
def diff_lines (actual expected : List Nat) : List (DiffRes (List Nat)) :=
  let la := rustLines actual
  let le := rustLines expected
  diffListsF (la.length + le.length + 1) la le

/-- FileDiff from src/difference.rs. -/
inductive FileDiff where
  | Diff (d : List (DiffRes (List Nat)))
  | Binary

/-- PermissionsDiff from src/difference.rs. -/
structure PermissionsDiff where
  mode : TestFieldComparison Nat Nat
  uid : TestFieldComparison Nat Nat
  gid : TestFieldComparison Nat Nat

/-- Translation of PermissionsDiff::from_permissions. -/
def PermissionsDiff.from_permissions (actual expected : Permissions) : PermissionsDiff :=
  { mode := if actual.mode = expected.mode then .Identical
      else .Differs actual.mode expected.mode
    uid := if actual.uid = expected.uid then .Identical
      else .Differs actual.uid expected.uid
    gid := if actual.gid = expected.gid then .Identical
      else .Differs actual.gid expected.gid }

/-- FileNodeDiff from src/difference.rs. The children mapping of
DirectoryDiffers is a key-sorted association list like the source BTreeMap. -/
inductive FileNodeDiff where
  | Identical
  | Unexpected (kind : String)
  | Missing (kind : String)
  | DifferentType (actual expected : String)
  | FileDiffers (contents : Option FileDiff) (permissions : Option PermissionsDiff)
  | DirectoryDiffers (children : Option (List (List Nat × FileNodeDiff)))
      (permissions : Option PermissionsDiff)
  | SymbolicLinkDiffers (target : Option (List Nat × List Nat))
      (permissions : Option PermissionsDiff)

/-- Whether a FileNodeDiff is the Identical outcome. -/
def FileNodeDiff.isIdentical : FileNodeDiff → Bool
  | .Identical => true
  | .Unexpected _ => false
  | .Missing _ => false
  | .DifferentType _ _ => false
  | .FileDiffers _ _ => false
  | .DirectoryDiffers _ _ => false
  | .SymbolicLinkDiffers _ _ => false

/-- The final match of the File/File arm of from_file_nodes: Identical iff
both parts are absent, else FileDiffers carrying them. -/
def combineFile (contents : Option FileDiff) (permissions : Option PermissionsDiff) :
    FileNodeDiff :=
  if contents.isNone && permissions.isNone then .Identical
  else .FileDiffers contents permissions

/-- The final match of the Directory/Directory arm of from_file_nodes. -/
def combineDir (children : Option (List (List Nat × FileNodeDiff)))
    (permissions : Option PermissionsDiff) : FileNodeDiff :=
  if children.isNone && permissions.isNone then .Identical
  else .DirectoryDiffers children permissions

/-- The final match of the SymbolicLink/SymbolicLink arm of from_file_nodes. -/
def combineSym (target : Option (List Nat × List Nat))
    (permissions : Option PermissionsDiff) : FileNodeDiff :=
  if target.isNone && permissions.isNone then .Identical
  else .SymbolicLinkDiffers target permissions

/-- The contents comparison of the File/File arm of from_file_nodes:
equal bytes = no difference; both UTF-8 = line diff, asserted non-empty
(none = the assert!(diff_nonempty(&diff)) panicked); otherwise Binary. -/
def fileContentsDiff (actual_contents expected_contents : List Nat) :
    Option (Option FileDiff) :=
  if actual_contents = expected_contents then some none
  else
    match from_utf8 actual_contents, from_utf8 expected_contents with
    | some a, some e =>
      let d := diff_lines a e
      if diff_nonempty d then some (some (.Diff d)) else none
    | some _, none => some (some .Binary)
    | none, some _ => some (some .Binary)
    | none, none => some (some .Binary)

/-- The permissions comparison shared by all three arms of from_file_nodes. -/
def permDiff (actual expected : Permissions) : Option PermissionsDiff :=
  if actual = expected then none
  else some (PermissionsDiff.from_permissions actual expected)

mutual

/-- Translation of FileNodeDiff::from_file_nodes in src/difference.rs.
The nine variant pairs are spelled out (the source's catch-all arm is the
six mixed pairs, each giving DifferentType of the two node_types). none
models a panic of the diff-nonempty assertion in this node or a child. -/
def FileNodeDiff.from_file_nodes : FileNode → FileNode → Option FileNodeDiff
  | .File ac ap, .File ec ep =>
    (fileContentsDiff ac ec).map (fun contents => combineFile contents (permDiff ap ep))
  | .SymbolicLink at_ ap, .SymbolicLink et ep =>
    some (combineSym (if at_ = et then none else some (at_, et)) (permDiff ap ep))
  | .Directory ach ap, .Directory ech ep =>
    (FileNodeDiff.dirChildrenDiff ach ech).map (fun dc =>
      combineDir (if dc.isEmpty then none else some dc) (permDiff ap ep))
  | .File _ _, .Directory _ _ => some (.DifferentType "file" "directory")
  | .File _ _, .SymbolicLink _ _ => some (.DifferentType "file" "symbolic link")
  | .Directory _ _, .File _ _ => some (.DifferentType "directory" "file")
  | .Directory _ _, .SymbolicLink _ _ => some (.DifferentType "directory" "symbolic link")
  | .SymbolicLink _ _, .File _ _ => some (.DifferentType "symbolic link" "file")
  | .SymbolicLink _ _, .Directory _ _ => some (.DifferentType "symbolic link" "directory")

/-- The directory-children loop of from_file_nodes: the source intersects
the two key-sorted BTreeMaps, recurses on common names keeping non-identical
results, then records leftover expected names as Missing and leftover actual
names as Unexpected, all collected into a key-sorted BTreeMap. On key-sorted
association lists this is exactly a sorted merge. -/
def FileNodeDiff.dirChildrenDiff :
    List (List Nat × FileNode) → List (List Nat × FileNode) →
    Option (List (List Nat × FileNodeDiff))
  | [], es => some (es.map (fun kv => (kv.1, .Missing kv.2.node_type)))
  | (ka, va) :: as_, [] =>
    (FileNodeDiff.dirChildrenDiff as_ []).map
      (fun rest => (ka, .Unexpected (FileNode.node_type va)) :: rest)
  | (ka, va) :: as_, (ke, ve) :: es =>
    if bytesLt ka ke then
      (FileNodeDiff.dirChildrenDiff as_ ((ke, ve) :: es)).map
        (fun rest => (ka, .Unexpected (FileNode.node_type va)) :: rest)
    else if bytesLt ke ka then
      (FileNodeDiff.dirChildrenDiff ((ka, va) :: as_) es).map
        (fun rest => (ke, .Missing (FileNode.node_type ve)) :: rest)
    else
      (FileNodeDiff.from_file_nodes va ve).bind (fun d =>
        (FileNodeDiff.dirChildrenDiff as_ es).map (fun rest =>
          if d.isIdentical then rest else (ka, d) :: rest))

end

/-- RootTestResult from src/results.rs. -/
inductive RootTestResult where
  | Ok
  | Ignored
  | Failed (stdout : TestFieldComparison (List Nat) (List Nat))
      (stderr : TestFieldComparison (List Nat) (List Nat))
      (status : TestFieldComparison Int Int)
      (root : TestFieldComparison FileNode FileNode)

/-- Translation of RootTestResult::upgrade_to_ok: a Failed whose four fields
are all Identical becomes Ok, everything else is unchanged. -/
def RootTestResult.upgrade_to_ok : RootTestResult → RootTestResult
  | .Ok => .Ok
  | .Ignored => .Ignored
  | .Failed stdout stderr status root =>
    if status.identical && stdout.identical && stderr.identical && root.identical
    then .Ok
    else .Failed stdout stderr status root

/-- Translation of the pure core of RootTestResult::new: the four comparisons
are built by equality checks against the expectations, then assembled as a
Failed and upgraded. The snapshot loads of the source are done by the caller
(see RootTest.run); this takes the two loaded roots. -/
def RootTestResult.new (expected_status : Int)
    (expected_stdout expected_stderr : List Nat)
    (status : Int) (stdout stderr : List Nat)
    (root root_after : FileNode) : RootTestResult :=
  let statusC : TestFieldComparison Int Int :=
    if status = expected_status then .Identical else .Differs status expected_status
  let stdoutC : TestFieldComparison (List Nat) (List Nat) :=
    if stdout = expected_stdout then .Identical else .Differs stdout expected_stdout
  let stderrC : TestFieldComparison (List Nat) (List Nat) :=
    if stderr = expected_stderr then .Identical else .Differs stderr expected_stderr
  let rootC : TestFieldComparison FileNode FileNode :=
    if root.beq root_after then .Identical else .Differs root root_after
  (RootTestResult.Failed stdoutC stderrC statusC rootC).upgrade_to_ok

/-- RootTestParams from src/tests.rs (the cd path as a byte list). -/
structure RootTestParams where
  cd : List Nat
  run : String
  expected_status : Int
  ignore : Option Bool

/-- RootTest from src/tests.rs: the fixture, with its derived paths. Paths
are abstract names (byte lists). -/
structure RootTest where
  name : String
  params : RootTestParams
  stdin : List Nat
  expected_stdout : List Nat
  expected_stderr : List Nat
  environment : List (String × String)
  root_before : List Nat
  root : List Nat
  root_after : List Nat
  actual_stdout : List Nat
  actual_stderr : List Nat

/-- Captured output of the launched process. -/
structure ProcessOutput where
  status : Int
  stdout : List Nat
  stderr : List Nat
deriving DecidableEq, Repr

/-- One observable external effect of RootTest::run. The execute event
records exactly what the source passes to the sandboxed launch: the chroot
directory, the cd subpath and command string interpolated into sh -c, and
the environment mapping explicitly given to the child process (the source
sets none). -/
inductive RunEvent where
  | removeDirAll (path : List Nat)
  | removeFile (path : List Nat)
  | copyRecursive (src dst : List Nat)
  | execute (chrootDir : List Nat) (cd : List Nat) (cmd : String)
      (envPassed : Option (List (String × String)))
  | writeFile (path : List Nat) (data : List Nat)
deriving DecidableEq, Repr

/-- Outcomes of the external collaborators of one RootTest::run call:
whether cp launched and succeeded, whether the chrooted launch succeeded and
its captured output, whether the two output saves succeeded, the two
snapshot loads done inside RootTestResult::new (none = a load failed), and
whether the final remove_dir_all succeeded. -/
structure RunEnv where
  cpLaunch : Option Bool
  execOutput : Option ProcessOutput
  saveStdoutOk : Bool
  saveStderrOk : Bool
  loadedRoots : Option (FileNode × FileNode)
  cleanupOk : Bool

/-- The tail of RootTest::run from the result-generation step on: build the
result via RootTestResult::new (whose snapshot loads may fail), then delete
the working root iff cleanup was requested. -/
def runFinish (t : RootTest) (cleanup : Bool) (env : RunEnv) (out : ProcessOutput)
    (ev : List RunEvent) : List RunEvent × Except String RootTestResult :=
  match env.loadedRoots with
  | none => (ev, .error "generate test results")
  | some (root, root_after) =>
    let result := RootTestResult.new t.params.expected_status t.expected_stdout
      t.expected_stderr out.status out.stdout out.stderr root root_after
    if cleanup then
      if env.cleanupOk then (ev ++ [.removeDirAll t.root], .ok result)
      else (ev ++ [.removeDirAll t.root], .error "clean up temporary root directory")
    else (ev, .ok result)

/-- Translation of RootTest::run in src/tests.rs as a trace of effects plus
an Except result (error = the anyhow error context string of the step that
failed and aborted the run). -/
def RootTest.run (t : RootTest) (cleanup include_ignored : Bool) (env : RunEnv) :
    List RunEvent × Except String RootTestResult :=
  if t.params.ignore.getD false && !include_ignored then ([], .ok .Ignored)
  else
    let ev0 : List RunEvent :=
      [.removeDirAll t.root, .removeFile t.actual_stdout, .removeFile t.actual_stderr]
    let ev1 := ev0 ++ [.copyRecursive t.root_before t.root]
    match env.cpLaunch with
    | none => (ev1, .error "run cp -r self.root_before self.root")
    | some cpOk =>
      if !cpOk then (ev1, .error "failed to run cp -r")
      else
        let ev2 := ev1 ++ [.execute t.root t.params.cd t.params.run none]
        match env.execOutput with
        | none => (ev2, .error "run test command in chroot")
        | some out =>
          if !cleanup then
            let ev3 := ev2 ++ [.writeFile t.actual_stdout out.stdout]
            if !env.saveStdoutOk then (ev3, .error "save actual stdout")
            else
              let ev4 := ev3 ++ [.writeFile t.actual_stderr out.stderr]
              if !env.saveStderrOk then (ev4, .error "save actual stderr")
              else runFinish t cleanup env out ev4
          else runFinish t cleanup env out ev2

theorem bytesLt_irrefl : ∀ l : List Nat, bytesLt l l = false := by
  intro l
  induction l with
  | nil => rfl
  | cons a as ih => simp [bytesLt, ih]

theorem bytesLt_trans : ∀ a b c : List Nat,
    bytesLt a b = true → bytesLt b c = true → bytesLt a c = true := by
  intro a
  induction a with
  | nil =>
    intro b c hab hbc
    cases b with
    | nil => simp [bytesLt] at hab
    | cons y ys =>
      cases c with
      | nil => simp [bytesLt] at hbc
      | cons z zs => simp [bytesLt]
  | cons x xs ih =>
    intro b c hab hbc
    cases b with
    | nil => simp [bytesLt] at hab
    | cons y ys =>
      cases c with
      | nil => simp [bytesLt] at hbc
      | cons z zs =>
        simp only [bytesLt] at hab hbc ⊢
        by_cases h1 : x < y
        · rw [if_pos h1] at hab
          by_cases h2 : y < z
          · rw [if_pos (by omega : x < z)]
          · rw [if_neg h2] at hbc
            by_cases h3 : z < y
            · rw [if_pos h3] at hbc
              exact absurd hbc (by simp)
            · rw [if_pos (by omega : x < z)]
        · rw [if_neg h1] at hab
          by_cases h4 : y < x
          · rw [if_pos h4] at hab
            exact absurd hab (by simp)
          · rw [if_neg h4] at hab
            by_cases h2 : y < z
            · rw [if_pos (by omega : x < z)]
            · rw [if_neg h2] at hbc
              by_cases h3 : z < y
              · rw [if_pos h3] at hbc
                exact absurd hbc (by simp)
              · rw [if_neg h3] at hbc
                rw [if_neg (by omega : ¬ x < z), if_neg (by omega : ¬ z < x)]
                exact ih ys zs hab hbc

theorem bytesLt_total_eq : ∀ a b : List Nat,
    bytesLt a b = false → bytesLt b a = false → a = b := by
  intro a
  induction a with
  | nil =>
    intro b hab _
    cases b with
    | nil => rfl
    | cons y ys => simp [bytesLt] at hab
  | cons x xs ih =>
    intro b hab hba
    cases b with
    | nil => simp [bytesLt] at hba
    | cons y ys =>
      simp only [bytesLt] at hab hba
      by_cases hxy : x < y
      · rw [if_pos hxy] at hab
        exact absurd hab (by simp)
      · rw [if_neg hxy] at hab
        by_cases hyx : y < x
        · rw [if_pos hyx] at hba
          exact absurd hba (by simp)
        · rw [if_neg hyx] at hab
          rw [if_neg hyx, if_neg hxy] at hba
          have hx : x = y := by omega
          subst hx
          rw [ih ys hab hba]

theorem beq_lawful_aux : ∀ n : Nat,
    (∀ a b : FileNode, sizeOf a ≤ n → (FileNode.beq a b = true ↔ a = b)) ∧
    (∀ l1 l2 : List (List Nat × FileNode), sizeOf l1 ≤ n →
      (FileNode.beqChildren l1 l2 = true ↔ l1 = l2)) := by
  intro n
  induction n with
  | zero =>
    constructor
    · intro a b h
      cases a <;> simp_arith at h
    · intro l1 l2 h
      cases l1 <;> simp_arith at h
  | succ n ih =>
    constructor
    · intro a b hsz
      cases a with
      | File c1 p1 =>
        cases b <;> simp [FileNode.beq]
      | Directory ch1 p1 =>
        cases b with
        | File c2 p2 => simp [FileNode.beq]
        | SymbolicLink t2 p2 => simp [FileNode.beq]
        | Directory ch2 p2 =>
          have hch : sizeOf ch1 ≤ n := by simp_arith at hsz; omega
          simp [FileNode.beq, (ih.2 ch1 ch2 hch)]
      | SymbolicLink t1 p1 =>
        cases b <;> simp [FileNode.beq]
    · intro l1 l2 hsz
      cases l1 with
      | nil => cases l2 <;> simp [FileNode.beqChildren]
      | cons kv1 r1 =>
        cases l2 with
        | nil => simp [FileNode.beqChildren]
        | cons kv2 r2 =>
          obtain ⟨k1, v1⟩ := kv1
          obtain ⟨k2, v2⟩ := kv2
          have hv : sizeOf v1 ≤ n := by simp_arith at hsz; omega
          have hr : sizeOf r1 ≤ n := by simp_arith at hsz; omega
          simp [FileNode.beqChildren, ih.1 v1 v2 hv, ih.2 r1 r2 hr]

theorem FileNode.beq_iff_eq (a b : FileNode) : FileNode.beq a b = true ↔ a = b :=
  (beq_lawful_aux (sizeOf a)).1 a b le_rfl

/-- C3: the claim says that for unequal byte contents that both decode as
UTF-8 the computed line diff always contains a changed operation, so the
diff-nonempty assertion in from_file_nodes never fails. The code violates
this: actual contents "a\n" and expected contents "a" are unequal bytes and
both valid UTF-8, but str::lines-based splitting drops the final line
ending, both sides split to the single line "a", the alignment is one Both
operation, and the assertion fires (modelled as the none result). -/
theorem from_file_nodes_assert_fails_on_trailing_newline :
    FileNodeDiff.from_file_nodes (.File [97, 10] ⟨0, 0, 0⟩) (.File [97] ⟨0, 0, 0⟩) =
      none := by
  simp only [FileNodeDiff.from_file_nodes]
  rfl

/-- C4: a test result constructed from four comparisons that are all
Identical is the verdict Ok; a Failed value carrying four Identical fields
is never the outcome of RootTestResult::new, and upgrade_to_ok sends any
such Failed value to Ok. -/
theorem new_upgrades_all_identical_to_ok (expected_status : Int)
    (expected_stdout expected_stderr : List Nat)
    (status : Int) (stdout stderr : List Nat) (root root_after : FileNode) :
    (RootTestResult.new expected_status expected_stdout expected_stderr
        status stdout stderr root root_after = .Ok ↔
      (status = expected_status ∧ stdout = expected_stdout ∧
        stderr = expected_stderr ∧ root = root_after)) ∧
    (∀ a b c d, RootTestResult.new expected_status expected_stdout expected_stderr
        status stdout stderr root root_after = .Failed a b c d →
      ¬(a.identical = true ∧ b.identical = true ∧ c.identical = true ∧
        d.identical = true)) ∧
    (∀ a b c d, a.identical = true → b.identical = true → c.identical = true →
      d.identical = true →
      RootTestResult.upgrade_to_ok (.Failed a b c d) = .Ok) := by
  refine ⟨?_, ?_, ?_⟩
  · by_cases h1 : status = expected_status <;>
    by_cases h2 : stdout = expected_stdout <;>
    by_cases h3 : stderr = expected_stderr <;>
    by_cases h4 : root = root_after <;>
      simp [RootTestResult.new, RootTestResult.upgrade_to_ok,
        TestFieldComparison.identical, h1, h2, h3, h4, FileNode.beq_iff_eq]
  · intro a b c d h
    by_cases h1 : status = expected_status <;>
    by_cases h2 : stdout = expected_stdout <;>
    by_cases h3 : stderr = expected_stderr <;>
    by_cases h4 : root = root_after <;>
      simp [RootTestResult.new, RootTestResult.upgrade_to_ok,
        TestFieldComparison.identical, h1, h2, h3, h4, FileNode.beq_iff_eq] at h <;>
      obtain ⟨rfl, rfl, rfl, rfl⟩ := h <;>
      simp [TestFieldComparison.identical]
  · intro a b c d ha hb hc hd
    simp [RootTestResult.upgrade_to_ok, ha, hb, hc, hd]

/-- C7: a pair of files whose byte contents differ where at least one side
is not valid UTF-8 always diffs to FileDiffers with the Binary content
marker (and the independent permissions comparison), never a line diff. -/
theorem binary_fallback_on_invalid_utf8 (ca ce : List Nat) (pa pe : Permissions)
    (hne : ca ≠ ce) (hu : from_utf8 ca = none ∨ from_utf8 ce = none) :
    FileNodeDiff.from_file_nodes (.File ca pa) (.File ce pe) =
      some (.FileDiffers (some .Binary) (permDiff pa pe)) := by
  simp only [FileNodeDiff.from_file_nodes, fileContentsDiff, if_neg hne]
  rcases hu with h | h
  · rw [h]
    cases from_utf8 ce <;> simp [combineFile]
  · rw [h]
    cases from_utf8 ca <;> simp [combineFile]

/-- Witness for C7 at a concrete input: the byte 0xFF is not valid UTF-8,
so the file pair (0xFF) vs (empty) yields the Binary marker. -/
theorem binary_fallback_on_invalid_utf8_witness :
    FileNodeDiff.from_file_nodes (.File [255] ⟨0, 0, 0⟩) (.File [] ⟨0, 0, 0⟩) =
      some (.FileDiffers (some .Binary) (permDiff ⟨0, 0, 0⟩ ⟨0, 0, 0⟩)) :=
  binary_fallback_on_invalid_utf8 [255] [] ⟨0, 0, 0⟩ ⟨0, 0, 0⟩
    (by decide) (Or.inl (by decide))

/-- A concrete non-ignored fixture with a nonempty environment mapping. -/
def sampleTest : RootTest :=
  { name := "sample"
    params := { cd := [46], run := "exit 0", expected_status := 0, ignore := none }
    stdin := []
    expected_stdout := []
    expected_stderr := []
    environment := [("KEY", "VALUE")]
    root_before := [1]
    root := [2]
    root_after := [3]
    actual_stdout := [4]
    actual_stderr := [5] }

/-- Collaborator outcomes where everything succeeds up to the result build,
whose snapshot load then fails. -/
def failingLoadEnv : RunEnv :=
  { cpLaunch := some true
    execOutput := some ⟨0, [], []⟩
    saveStdoutOk := true
    saveStderrOk := true
    loadedRoots := none
    cleanupOk := true }

/-- Collaborator outcomes where every step succeeds. -/
def okEnv : RunEnv :=
  { cpLaunch := some true
    execOutput := some ⟨0, [], []⟩
    saveStdoutOk := true
    saveStderrOk := true
    loadedRoots := some (.File [] ⟨0, 0, 0⟩, .File [] ⟨0, 0, 0⟩)
    cleanupOk := true }

/-- C8 counterexample: with cleanup requested, on the exit path where
building the result fails (a snapshot load error), the run returns the
error early and the trace does not end with the deletion of the working
root — so the root is not deleted on every exit path as claimed. -/
theorem run_cleanup_skipped_on_result_failure_cex :
    (RootTest.run sampleTest true false failingLoadEnv).2 =
      .error "generate test results" ∧
    (RootTest.run sampleTest true false failingLoadEnv).1.getLast? ≠
      some (.removeDirAll sampleTest.root) := by
  constructor
  · rfl
  · decide

/-- C8 as amended: with cleanup requested on a non-ignored run whose staging
and execution succeed, the working root is deleted as the final action when
the result build succeeds (whatever the verdict); but when the result build
fails, run returns early with the error and the trace stops at the execute
event, with no deletion after comparison. -/
theorem run_cleanup_on_success_paths (t : RootTest) (ii : Bool) (env : RunEnv)
    (out : ProcessOutput)
    (hni : (t.params.ignore.getD false && !ii) = false)
    (hcp : env.cpLaunch = some true)
    (hex : env.execOutput = some out) :
    (∀ r ra, env.loadedRoots = some (r, ra) → env.cleanupOk = true →
      (RootTest.run t true ii env).1.getLast? = some (.removeDirAll t.root)) ∧
    (env.loadedRoots = none →
      (RootTest.run t true ii env).2 = .error "generate test results" ∧
      (RootTest.run t true ii env).1 =
        [.removeDirAll t.root, .removeFile t.actual_stdout, .removeFile t.actual_stderr,
          .copyRecursive t.root_before t.root,
          .execute t.root t.params.cd t.params.run none]) := by
  constructor
  · intro r ra hl hck
    simp [RootTest.run, hni, hcp, hex, runFinish, hl, hck]
  · intro hl
    simp [RootTest.run, hni, hcp, hex, runFinish, hl]

/-- Witness for C8 as amended: on a fully successful cleanup run of the
sample fixture the final event is the deletion of the working root. -/
theorem run_cleanup_on_success_paths_witness :
    (RootTest.run sampleTest true false okEnv).1.getLast? =
      some (.removeDirAll sampleTest.root) :=
  (run_cleanup_on_success_paths sampleTest false okEnv ⟨0, [], []⟩
    (by decide) rfl rfl).1 (.File [] ⟨0, 0, 0⟩) (.File [] ⟨0, 0, 0⟩) rfl rfl

/-- C9 counterexample: the sample fixture has a nonempty environment
mapping, yet the execution collaborator is invoked with no environment
passed; no execute event carrying the fixture's environment appears. -/
theorem run_env_not_passed_cex :
    sampleTest.environment ≠ [] ∧
    RunEvent.execute sampleTest.root sampleTest.params.cd sampleTest.params.run
        (some sampleTest.environment) ∉
      (RootTest.run sampleTest true false failingLoadEnv).1 ∧
    RunEvent.execute sampleTest.root sampleTest.params.cd sampleTest.params.run
        none ∈
      (RootTest.run sampleTest true false failingLoadEnv).1 := by
  refine ⟨by decide, by decide, by decide⟩

/-- C9 as amended: every non-ignored run whose staging succeeds invokes the
execution collaborator exactly with the fixture's working root, cd subpath
and command line, and passes no environment mapping to the launched process
(the loaded environment mapping is unused). -/
theorem run_execute_event_shape (t : RootTest) (cleanup ii : Bool) (env : RunEnv)
    (out : ProcessOutput)
    (hni : (t.params.ignore.getD false && !ii) = false)
    (hcp : env.cpLaunch = some true)
    (hex : env.execOutput = some out) :
    RunEvent.execute t.root t.params.cd t.params.run none ∈
      (RootTest.run t cleanup ii env).1 ∧
    (∀ r c m ep, RunEvent.execute r c m ep ∈ (RootTest.run t cleanup ii env).1 →
      r = t.root ∧ c = t.params.cd ∧ m = t.params.run ∧ ep = none) := by
  rcases hl : env.loadedRoots with _ | ⟨r0, ra0⟩ <;>
  cases cleanup <;>
  cases hso : env.saveStdoutOk <;>
  cases hse : env.saveStderrOk <;>
  cases hck : env.cleanupOk <;>
  constructor <;>
    simp [RootTest.run, hni, hcp, hex, runFinish, hl, hso, hse, hck]

/-- Witness for C9 as amended, at the sample fixture. -/
theorem run_execute_event_shape_witness :
    RunEvent.execute sampleTest.root sampleTest.params.cd sampleTest.params.run none ∈
      (RootTest.run sampleTest true false failingLoadEnv).1 ∧
    (∀ r c m ep,
      RunEvent.execute r c m ep ∈ (RootTest.run sampleTest true false failingLoadEnv).1 →
      r = sampleTest.root ∧ c = sampleTest.params.cd ∧
        m = sampleTest.params.run ∧ ep = none) :=
  run_execute_event_shape sampleTest true false failingLoadEnv ⟨0, [], []⟩
    (by decide) rfl rfl

theorem dcd_self (cs : List (List Nat × FileNode))
    (h : ∀ kv ∈ cs, FileNodeDiff.from_file_nodes kv.2 kv.2 = some .Identical) :
    FileNodeDiff.dirChildrenDiff cs cs = some [] := by
  induction cs with
  | nil => simp [FileNodeDiff.dirChildrenDiff]
  | cons kv rest ih =>
    obtain ⟨k, v⟩ := kv
    have hv : FileNodeDiff.from_file_nodes v v = some .Identical :=
      h (k, v) (List.mem_cons_self _ _)
    have hrest : FileNodeDiff.dirChildrenDiff rest rest = some [] :=
      ih (fun kv hkv => h kv (List.mem_cons_of_mem _ hkv))
    simp [FileNodeDiff.dirChildrenDiff, bytesLt_irrefl, hv, hrest,
      FileNodeDiff.isIdentical]

theorem ffn_self_aux : ∀ n : Nat, ∀ s : FileNode, sizeOf s ≤ n →
    FileNodeDiff.from_file_nodes s s = some .Identical := by
  intro n
  induction n with
  | zero => intro s h; cases s <;> simp_arith at h
  | succ n ih =>
    intro s hs
    cases s with
    | File c p =>
      simp [FileNodeDiff.from_file_nodes, fileContentsDiff, permDiff, combineFile]
    | SymbolicLink t p =>
      simp [FileNodeDiff.from_file_nodes, permDiff, combineSym]
    | Directory cs p =>
      have hcs : FileNodeDiff.dirChildrenDiff cs cs = some [] := by
        apply dcd_self
        intro kv hkv
        have h1 := List.sizeOf_lt_of_mem hkv
        apply ih
        obtain ⟨k, v⟩ := kv
        simp_arith at h1 hs ⊢
        omega
      simp [FileNodeDiff.from_file_nodes, hcs, permDiff, combineDir]

/-- C6: diffing any snapshot against itself yields the Identical outcome
(no difference tree node), with no panic: from_file_nodes(s, s) = Identical. -/
theorem from_file_nodes_self_identical :
    ∀ s : FileNode, FileNodeDiff.from_file_nodes s s = some .Identical :=
  fun s => ffn_self_aux (sizeOf s) s le_rfl

def keySorted {β : Type} (l : List (List Nat × β)) : Prop :=
  l.Pairwise (fun a b => bytesLt a.1 b.1 = true)

theorem isIdentical_false_iff (d : FileNodeDiff) :
    d.isIdentical = false ↔ d ≠ .Identical := by
  cases d <;> simp [FileNodeDiff.isIdentical]

theorem dcd_aux : ∀ (N : Nat) (ach ech : List (List Nat × FileNode)),
    ach.length + ech.length ≤ N →
    keySorted ach → keySorted ech →
    ∀ m, FileNodeDiff.dirChildrenDiff ach ech = some m →
    (∀ kd ∈ m, (∃ v, (kd.1, v) ∈ ach) ∨ (∃ v, (kd.1, v) ∈ ech)) ∧
    keySorted m ∧
    (∀ kd ∈ m, kd.2.isIdentical = false) ∧
    (∀ k v, (k, v) ∈ ech → (∀ w, (k, w) ∉ ach) → (k, .Missing v.node_type) ∈ m) ∧
    (∀ k v, (k, v) ∈ ach → (∀ w, (k, w) ∉ ech) → (k, .Unexpected v.node_type) ∈ m) ∧
    (∀ k va ve d, (k, va) ∈ ach → (k, ve) ∈ ech →
      FileNodeDiff.from_file_nodes va ve = some d → d.isIdentical = false →
      (k, d) ∈ m) := by
  intro N
  induction N with
  | zero =>
    intro ach ech hlen ha he m hm
    match ach, ech with
    | [], [] =>
      simp [FileNodeDiff.dirChildrenDiff] at hm
      subst hm
      refine ⟨by simp, by simp [keySorted], by simp, by simp, by simp, by simp⟩
    | [], kv :: es => simp at hlen
    | kv :: as_, _ => simp at hlen
  | succ N ih =>
    intro ach ech hlen ha he m hm
    match ach, ech with
    | [], es =>
      simp only [FileNodeDiff.dirChildrenDiff, Option.some.injEq] at hm
      subst hm
      refine ⟨?_, ?_, ?_, ?_, ?_, ?_⟩
      · intro kd hkd
        simp only [List.mem_map] at hkd
        obtain ⟨kv, hkv, rfl⟩ := hkd
        exact Or.inr ⟨kv.2, hkv⟩
      · exact List.Pairwise.map _ (fun a b hab => hab) he
      · intro kd hkd
        simp only [List.mem_map] at hkd
        obtain ⟨kv, hkv, rfl⟩ := hkd
        simp [FileNodeDiff.isIdentical]
      · intro k v hkv _
        exact List.mem_map.mpr ⟨(k, v), hkv, rfl⟩
      · intro k v hkv _
        simp at hkv
      · intro k va ve d hva _ _ _
        simp at hva
    | (ka, va) :: as_, [] =>
      simp only [FileNodeDiff.dirChildrenDiff] at hm
      obtain ⟨rest, hrest, hmrest⟩ := Option.map_eq_some'.mp hm
      subst hmrest
      obtain ⟨hah, hat⟩ := List.pairwise_cons.mp ha
      have hind := ih as_ [] (by simp at hlen ⊢; omega) hat he rest hrest
      obtain ⟨hsub, hsort, hnid, hmis, hune, hcom⟩ := hind
      refine ⟨?_, ?_, ?_, ?_, ?_, ?_⟩
      · intro kd hkd
        rcases List.mem_cons.mp hkd with h | h
        · subst h; exact Or.inl ⟨va, List.mem_cons_self _ _⟩
        · rcases hsub kd h with ⟨v, hv⟩ | ⟨v, hv⟩
          · exact Or.inl ⟨v, List.mem_cons_of_mem _ hv⟩
          · simp at hv
      · refine List.pairwise_cons.mpr ⟨?_, hsort⟩
        intro x hx
        rcases hsub x hx with ⟨v, hv⟩ | ⟨v, hv⟩
        · exact hah (x.1, v) hv
        · simp at hv
      · intro kd hkd
        rcases List.mem_cons.mp hkd with h | h
        · subst h; simp [FileNodeDiff.isIdentical]
        · exact hnid kd h
      · intro k v hkv _
        simp at hkv
      · intro k v hkv hnot
        rcases List.mem_cons.mp hkv with h | h
        · rw [Prod.mk.injEq] at h
          obtain ⟨rfl, rfl⟩ := h
          exact List.mem_cons_self _ _
        · exact List.mem_cons_of_mem _ (hune k v h hnot)
      · intro k va' ve' d _ hve _ _
        simp at hve
    | (ka, va) :: as_, (ke, ve) :: es =>
      obtain ⟨hah, hat⟩ := List.pairwise_cons.mp ha
      obtain ⟨heh, het⟩ := List.pairwise_cons.mp he
      simp only [FileNodeDiff.dirChildrenDiff] at hm
      by_cases hlt : bytesLt ka ke = true
      · rw [if_pos hlt] at hm
        obtain ⟨rest, hrest, hmrest⟩ := Option.map_eq_some'.mp hm
        subst hmrest
        have hind := ih as_ ((ke, ve) :: es) (by simp at hlen ⊢; omega) hat he rest hrest
        obtain ⟨hsub, hsort, hnid, hmis, hune, hcom⟩ := hind
        have hkax : ∀ x ∈ rest, bytesLt ka x.1 = true := by
          intro x hx
          rcases hsub x hx with ⟨v, hv⟩ | ⟨v, hv⟩
          · exact hah (x.1, v) hv
          · rcases List.mem_cons.mp hv with h | h
            · rw [Prod.mk.injEq] at h
              obtain ⟨rfl, rfl⟩ := h
              exact hlt
            · exact bytesLt_trans _ _ _ hlt (heh (x.1, v) h)
        refine ⟨?_, ?_, ?_, ?_, ?_, ?_⟩
        · intro kd hkd
          rcases List.mem_cons.mp hkd with h | h
          · subst h; exact Or.inl ⟨va, List.mem_cons_self _ _⟩
          · rcases hsub kd h with ⟨v, hv⟩ | ⟨v, hv⟩
            · exact Or.inl ⟨v, List.mem_cons_of_mem _ hv⟩
            · exact Or.inr ⟨v, hv⟩
        · exact List.pairwise_cons.mpr ⟨hkax, hsort⟩
        · intro kd hkd
          rcases List.mem_cons.mp hkd with h | h
          · subst h; simp [FileNodeDiff.isIdentical]
          · exact hnid kd h
        · intro k v hkv hnot
          have hkne : ∀ w, (k, w) ∉ as_ := by
            intro w hw
            exact hnot w (List.mem_cons_of_mem _ hw)
          have : (k, FileNodeDiff.Missing v.node_type) ∈ rest := by
            apply hmis k v hkv hkne
          exact List.mem_cons_of_mem _ this
        · intro k v hkv hnot
          rcases List.mem_cons.mp hkv with h | h
          · rw [Prod.mk.injEq] at h
            obtain ⟨rfl, rfl⟩ := h
            exact List.mem_cons_self _ _
          · exact List.mem_cons_of_mem _ (hune k v h hnot)
        · intro k va' ve' d hva' hve' hd hdnid
          have hkka : k ≠ ka := by
            intro hk
            subst hk
            rcases List.mem_cons.mp hve' with h | h
            · rw [Prod.mk.injEq] at h
              obtain ⟨rfl, rfl⟩ := h
              rw [bytesLt_irrefl] at hlt
              exact Bool.false_ne_true hlt
            · have := bytesLt_trans _ _ _ hlt (heh (k, ve') h)
              rw [bytesLt_irrefl] at this
              exact Bool.false_ne_true this
          have hva'' : (k, va') ∈ as_ := by
            rcases List.mem_cons.mp hva' with h | h
            · rw [Prod.mk.injEq] at h
              exact absurd h.1 hkka
            · exact h
          exact List.mem_cons_of_mem _ (hcom k va' ve' d hva'' hve' hd hdnid)
      · rw [if_neg hlt] at hm
        by_cases hgt : bytesLt ke ka = true
        · rw [if_pos hgt] at hm
          obtain ⟨rest, hrest, hmrest⟩ := Option.map_eq_some'.mp hm
          subst hmrest
          have hind := ih ((ka, va) :: as_) es (by simp at hlen ⊢; omega) ha het rest hrest
          obtain ⟨hsub, hsort, hnid, hmis, hune, hcom⟩ := hind
          have hkex : ∀ x ∈ rest, bytesLt ke x.1 = true := by
            intro x hx
            rcases hsub x hx with ⟨v, hv⟩ | ⟨v, hv⟩
            · rcases List.mem_cons.mp hv with h | h
              · rw [Prod.mk.injEq] at h
                obtain ⟨rfl, rfl⟩ := h
                exact hgt
              · exact bytesLt_trans _ _ _ hgt (hah (x.1, v) h)
            · exact heh (x.1, v) hv
          refine ⟨?_, ?_, ?_, ?_, ?_, ?_⟩
          · intro kd hkd
            rcases List.mem_cons.mp hkd with h | h
            · subst h; exact Or.inr ⟨ve, List.mem_cons_self _ _⟩
            · rcases hsub kd h with ⟨v, hv⟩ | ⟨v, hv⟩
              · exact Or.inl ⟨v, hv⟩
              · exact Or.inr ⟨v, List.mem_cons_of_mem _ hv⟩
          · exact List.pairwise_cons.mpr ⟨hkex, hsort⟩
          · intro kd hkd
            rcases List.mem_cons.mp hkd with h | h
            · subst h; simp [FileNodeDiff.isIdentical]
            · exact hnid kd h
          · intro k v hkv hnot
            rcases List.mem_cons.mp hkv with h | h
            · rw [Prod.mk.injEq] at h
              obtain ⟨rfl, rfl⟩ := h
              exact List.mem_cons_self _ _
            · exact List.mem_cons_of_mem _ (hmis k v h hnot)
          · intro k v hkv hnot
            have hkne : ∀ w, (k, w) ∉ es := by
              intro w hw
              exact hnot w (List.mem_cons_of_mem _ hw)
            exact List.mem_cons_of_mem _ (hune k v hkv hkne)
          · intro k va' ve' d hva' hve' hd hdnid
            have hkke : k ≠ ke := by
              intro hk
              subst hk
              rcases List.mem_cons.mp hva' with h | h
              · rw [Prod.mk.injEq] at h
                obtain ⟨rfl, rfl⟩ := h
                rw [bytesLt_irrefl] at hgt
                exact Bool.false_ne_true hgt
              · have := bytesLt_trans _ _ _ hgt (hah (k, va') h)
                rw [bytesLt_irrefl] at this
                exact Bool.false_ne_true this
            have hve'' : (k, ve') ∈ es := by
              rcases List.mem_cons.mp hve' with h | h
              · rw [Prod.mk.injEq] at h
                exact absurd h.1 hkke
              · exact h
            exact List.mem_cons_of_mem _ (hcom k va' ve' d hva' hve'' hd hdnid)
        · rw [if_neg hgt] at hm
          have hkeq : ka = ke :=
            bytesLt_total_eq ka ke (Bool.eq_false_iff.mpr hlt) (Bool.eq_false_iff.mpr hgt)
          subst hkeq
          obtain ⟨d, hd, hm2⟩ := Option.bind_eq_some.mp hm
          obtain ⟨rest, hrest, hmrest⟩ := Option.map_eq_some'.mp hm2
          have hind := ih as_ es (by simp at hlen ⊢; omega) hat het rest hrest
          obtain ⟨hsub, hsort, hnid, hmis, hune, hcom⟩ := hind
          have huniq_a : ∀ w, (ka, w) ∈ (ka, va) :: as_ → w = va := by
            intro w hw
            rcases List.mem_cons.mp hw with h | h
            · rw [Prod.mk.injEq] at h
              exact h.2
            · have := hah (ka, w) h
              rw [bytesLt_irrefl] at this
              exact absurd this Bool.false_ne_true
          have huniq_e : ∀ w, (ka, w) ∈ (ka, ve) :: es → w = ve := by
            intro w hw
            rcases List.mem_cons.mp hw with h | h
            · rw [Prod.mk.injEq] at h
              exact h.2
            · have := heh (ka, w) h
              rw [bytesLt_irrefl] at this
              exact absurd this Bool.false_ne_true
          have hnotin_as : ∀ w, (ka, w) ∉ as_ := by
            intro w hw
            have := hah (ka, w) hw
            rw [bytesLt_irrefl] at this
            exact absurd this Bool.false_ne_true
          have hnotin_es : ∀ w, (ka, w) ∉ es := by
            intro w hw
            have := heh (ka, w) hw
            rw [bytesLt_irrefl] at this
            exact absurd this Bool.false_ne_true
          by_cases hid : d.isIdentical = true
          · rw [hid] at hmrest
            simp only [if_true] at hmrest
            subst hmrest
            refine ⟨?_, hsort, hnid, ?_, ?_, ?_⟩
            · intro kd hkd
              rcases hsub kd hkd with ⟨v, hv⟩ | ⟨v, hv⟩
              · exact Or.inl ⟨v, List.mem_cons_of_mem _ hv⟩
              · exact Or.inr ⟨v, List.mem_cons_of_mem _ hv⟩
            · intro k v hkv hnot
              rcases List.mem_cons.mp hkv with h | h
              · rw [Prod.mk.injEq] at h
                obtain ⟨rfl, rfl⟩ := h
                exact absurd (List.mem_cons_self _ _) (hnot va)
              · apply hmis k v h
                intro w hw
                exact hnot w (List.mem_cons_of_mem _ hw)
            · intro k v hkv hnot
              rcases List.mem_cons.mp hkv with h | h
              · rw [Prod.mk.injEq] at h
                obtain ⟨rfl, rfl⟩ := h
                exact absurd (List.mem_cons_self _ _) (hnot ve)
              · apply hune k v h
                intro w hw
                exact hnot w (List.mem_cons_of_mem _ hw)
            · intro k va' ve' d' hva' hve' hd' hdnid
              by_cases hk : k = ka
              · subst hk
                have h1 := huniq_a va' hva'
                have h2 := huniq_e ve' hve'
                subst h1; subst h2
                rw [hd] at hd'
                obtain rfl := Option.some.injEq .. ▸ hd'
                rw [hid] at hdnid
                exact absurd hdnid (by simp)
              · have hva'' : (k, va') ∈ as_ := by
                  rcases List.mem_cons.mp hva' with h | h
                  · rw [Prod.mk.injEq] at h
                    exact absurd h.1 hk
                  · exact h
                have hve'' : (k, ve') ∈ es := by
                  rcases List.mem_cons.mp hve' with h | h
                  · rw [Prod.mk.injEq] at h
                    exact absurd h.1 hk
                  · exact h
                exact hcom k va' ve' d' hva'' hve'' hd' hdnid
          · rw [Bool.not_eq_true] at hid
            rw [hid] at hmrest
            simp only [Bool.false_eq_true, if_false] at hmrest
            subst hmrest
            have hkax : ∀ x ∈ rest, bytesLt ka x.1 = true := by
              intro x hx
              rcases hsub x hx with ⟨v, hv⟩ | ⟨v, hv⟩
              · exact hah (x.1, v) hv
              · exact heh (x.1, v) hv
            refine ⟨?_, ?_, ?_, ?_, ?_, ?_⟩
            · intro kd hkd
              rcases List.mem_cons.mp hkd with h | h
              · subst h; exact Or.inl ⟨va, List.mem_cons_self _ _⟩
              · rcases hsub kd h with ⟨v, hv⟩ | ⟨v, hv⟩
                · exact Or.inl ⟨v, List.mem_cons_of_mem _ hv⟩
                · exact Or.inr ⟨v, List.mem_cons_of_mem _ hv⟩
            · exact List.pairwise_cons.mpr ⟨hkax, hsort⟩
            · intro kd hkd
              rcases List.mem_cons.mp hkd with h | h
              · subst h; exact hid
              · exact hnid kd h
            · intro k v hkv hnot
              rcases List.mem_cons.mp hkv with h | h
              · rw [Prod.mk.injEq] at h
                obtain ⟨rfl, rfl⟩ := h
                exact absurd (List.mem_cons_self _ _) (hnot va)
              · refine List.mem_cons_of_mem _ (hmis k v h ?_)
                intro w hw
                exact hnot w (List.mem_cons_of_mem _ hw)
            · intro k v hkv hnot
              rcases List.mem_cons.mp hkv with h | h
              · rw [Prod.mk.injEq] at h
                obtain ⟨rfl, rfl⟩ := h
                exact absurd (List.mem_cons_self _ _) (hnot ve)
              · refine List.mem_cons_of_mem _ (hune k v h ?_)
                intro w hw
                exact hnot w (List.mem_cons_of_mem _ hw)
            · intro k va' ve' d' hva' hve' hd' hdnid
              by_cases hk : k = ka
              · subst hk
                have h1 := huniq_a va' hva'
                have h2 := huniq_e ve' hve'
                subst h1; subst h2
                rw [hd] at hd'
                have : d = d' := by
                  injection hd'
                subst this
                exact List.mem_cons_self _ _
              · have hva'' : (k, va') ∈ as_ := by
                  rcases List.mem_cons.mp hva' with h | h
                  · rw [Prod.mk.injEq] at h
                    exact absurd h.1 hk
                  · exact h
                have hve'' : (k, ve') ∈ es := by
                  rcases List.mem_cons.mp hve' with h | h
                  · rw [Prod.mk.injEq] at h
                    exact absurd h.1 hk
                  · exact h
                exact List.mem_cons_of_mem _ (hcom k va' ve' d' hva'' hve'' hd' hdnid)

/-- C5: for key-sorted directory snapshots, the children mapping of the
structural diff is key-sorted (lexicographic byte order on names), never
contains an entry whose recursive diff is Identical, maps each name present
only in expected to Missing of the expected node's kind, each name present
only in actual to Unexpected of the actual node's kind, and contains the
recursive diff of each common name exactly when it is not Identical; and
the Directory/Directory arm of from_file_nodes wraps this mapping. -/
theorem dir_diff_children_characterization (ach ech : List (List Nat × FileNode))
    (ha : keySorted ach) (he : keySorted ech)
    (m : List (List Nat × FileNodeDiff))
    (hm : FileNodeDiff.dirChildrenDiff ach ech = some m) :
    keySorted m ∧
    (∀ kd ∈ m, kd.2 ≠ .Identical) ∧
    (∀ k v, (k, v) ∈ ech → (∀ w, (k, w) ∉ ach) → (k, .Missing v.node_type) ∈ m) ∧
    (∀ k v, (k, v) ∈ ach → (∀ w, (k, w) ∉ ech) → (k, .Unexpected v.node_type) ∈ m) ∧
    (∀ k va ve d, (k, va) ∈ ach → (k, ve) ∈ ech →
      FileNodeDiff.from_file_nodes va ve = some d → d ≠ .Identical → (k, d) ∈ m) ∧
    (∀ ap ep, FileNodeDiff.from_file_nodes (.Directory ach ap) (.Directory ech ep) =
      some (combineDir (if m.isEmpty then none else some m) (permDiff ap ep))) := by
  obtain ⟨hsub, hsort, hnid, hmis, hune, hcom⟩ :=
    dcd_aux (ach.length + ech.length) ach ech le_rfl ha he m hm
  refine ⟨hsort, ?_, hmis, hune, ?_, ?_⟩
  · intro kd hkd
    exact (isIdentical_false_iff kd.2).mp (hnid kd hkd)
  · intro k va ve d h1 h2 h3 h4
    exact hcom k va ve d h1 h2 h3 ((isIdentical_false_iff d).mpr h4)
  · intro ap ep
    simp [FileNodeDiff.from_file_nodes, hm]

/-- Witness for C5: two singleton directories with disjoint names produce
the sorted Unexpected/Missing mapping. -/
theorem dir_diff_children_characterization_witness :
    keySorted ([([97], FileNode.File [0] ⟨0, 0, 0⟩)]) ∧
    keySorted ([([98], FileNode.File [0] ⟨0, 0, 0⟩)]) ∧
    (([98], FileNodeDiff.Missing "file") ∈
      ([([97], FileNodeDiff.Unexpected "file"), ([98], FileNodeDiff.Missing "file")] :
        List (List Nat × FileNodeDiff)) ∧
     ([97], FileNodeDiff.Unexpected "file") ∈
      ([([97], FileNodeDiff.Unexpected "file"), ([98], FileNodeDiff.Missing "file")] :
        List (List Nat × FileNodeDiff))) := by
  have hm : FileNodeDiff.dirChildrenDiff
      [([97], FileNode.File [0] ⟨0, 0, 0⟩)] [([98], FileNode.File [0] ⟨0, 0, 0⟩)] =
      some [([97], FileNodeDiff.Unexpected "file"), ([98], FileNodeDiff.Missing "file")] := by
    simp [FileNodeDiff.dirChildrenDiff, bytesLt, FileNode.node_type]
  have h := dir_diff_children_characterization _ _ (by simp [keySorted]) (by simp [keySorted]) _ hm
  refine ⟨by simp [keySorted], by simp [keySorted], ?_, ?_⟩
  · exact h.2.2.1 [98] (FileNode.File [0] ⟨0, 0, 0⟩) (by simp) (by simp)
  · exact h.2.2.2.1 [97] (FileNode.File [0] ⟨0, 0, 0⟩) (by simp) (by simp)

theorem hunkOps_append {α : Type} (hs1 hs2 : List (HunkAcc α)) :
    hunkOps (hs1 ++ hs2) = hunkOps hs1 ++ hunkOps hs2 := by
  simp [hunkOps]

theorem hunkOps_toList {α : Type} (hunks : List (HunkAcc α)) (cur : Option (HunkAcc α)) :
    hunkOps (hunks ++ cur.toList) = hunkOps hunks ++ curOps cur := by
  cases cur <;> simp [hunkOps, curOps]

theorem changesOf_append {α : Type} (l1 l2 : List (DiffRes α)) :
    changesOf (l1 ++ l2) = changesOf l1 ++ changesOf l2 := by
  simp [changesOf]

theorem appendCur_ops {α : Type} (ll rl : Nat) (line : DiffRes α)
    (cur : Option (HunkAcc α)) :
    (appendCur ll rl line cur).2.2 = curOps cur ++ [line] := by
  cases cur with
  | none => simp [appendCur, curOps]
  | some c =>
    obtain ⟨l, r, ops⟩ := c
    simp [appendCur, curOps]

theorem curOps_appendCur {α : Type} (ll rl : Nat) (line : DiffRes α)
    (cur : Option (HunkAcc α)) :
    curOps (some (appendCur ll rl line cur)) = curOps cur ++ [line] := by
  simpa [curOps] using appendCur_ops ll rl line cur

theorem haux_mono {α : Type} (extra : Nat) :
    ∀ (rest prev : List (DiffRes α)) (ll rl : Nat) (cur : Option (HunkAcc α))
      (hunks hs : List (HunkAcc α)),
    hunkAux extra prev rest ll rl cur hunks = some hs →
    ∃ tail, hs = hunks ++ tail := by
  intro rest
  induction rest with
  | nil =>
    intro prev ll rl cur hunks hs hm
    simp only [hunkAux, Option.some.injEq] at hm
    exact ⟨cur.toList, hm.symm⟩
  | cons line rest ih =>
    intro prev ll rl cur hunks hs hm
    cases line with
    | Left a =>
      simp only [hunkAux] at hm
      exact ih _ _ _ _ _ _ hm
    | Right a =>
      simp only [hunkAux] at hm
      exact ih _ _ _ _ _ _ hm
    | Both a b =>
      simp only [hunkAux] at hm
      by_cases hf : ((DiffRes.Both a b :: rest).take (extra + 1)).any isDifferent = true
      · rw [if_pos hf] at hm
        exact ih _ _ _ _ _ _ hm
      · rw [if_neg hf] at hm
        by_cases hb : (prev.take extra).any isDifferent = true
        · rw [if_pos hb] at hm
          cases cur with
          | none => exact absurd hm (by simp)
          | some c =>
            obtain ⟨l, r, ops⟩ := c
            exact ih _ _ _ _ _ _ hm
        · rw [if_neg hb] at hm
          obtain ⟨tail, htail⟩ := ih _ _ _ _ _ _ hm
          exact ⟨cur.toList ++ tail, by simp [htail]⟩

theorem haux_cov {α : Type} (extra : Nat) :
    ∀ (rest prev : List (DiffRes α)) (ll rl : Nat) (cur : Option (HunkAcc α))
      (hunks hs : List (HunkAcc α)),
    hunkAux extra prev rest ll rl cur hunks = some hs →
    changesOf (hunkOps hs) =
      changesOf (hunkOps hunks) ++ changesOf (curOps cur) ++ changesOf rest := by
  intro rest
  induction rest with
  | nil =>
    intro prev ll rl cur hunks hs hm
    simp only [hunkAux, Option.some.injEq] at hm
    subst hm
    simp [hunkOps_toList, changesOf_append, changesOf]
  | cons line rest ih =>
    intro prev ll rl cur hunks hs hm
    cases line with
    | Left a =>
      simp only [hunkAux] at hm
      have h := ih _ _ _ _ _ _ hm
      rw [h, curOps_appendCur]
      simp [changesOf_append, changesOf, isDifferent]
    | Right a =>
      simp only [hunkAux] at hm
      have h := ih _ _ _ _ _ _ hm
      rw [h, curOps_appendCur]
      simp [changesOf_append, changesOf, isDifferent]
    | Both a b =>
      simp only [hunkAux] at hm
      by_cases hf : ((DiffRes.Both a b :: rest).take (extra + 1)).any isDifferent = true
      · rw [if_pos hf] at hm
        have h := ih _ _ _ _ _ _ hm
        rw [h, curOps_appendCur]
        simp [changesOf_append, changesOf, isDifferent]
      · rw [if_neg hf] at hm
        by_cases hb : (prev.take extra).any isDifferent = true
        · rw [if_pos hb] at hm
          cases cur with
          | none => exact absurd hm (by simp)
          | some c =>
            obtain ⟨l, r, ops⟩ := c
            have h := ih _ _ _ _ _ _ hm
            rw [h]
            simp [changesOf_append, changesOf, curOps, isDifferent]
        · rw [if_neg hb] at hm
          have h := ih _ _ _ _ _ _ hm
          rw [h, hunkOps_toList]
          simp [changesOf_append, changesOf, curOps, isDifferent]

theorem haux_pers {α : Type} (extra : Nat) :
    ∀ (rest prev : List (DiffRes α)) (ll rl : Nat) (c : HunkAcc α)
      (hunks hs : List (HunkAcc α)),
    hunkAux extra prev rest ll rl (some c) hunks = some hs →
    ∃ h, h ∈ hs ∧ h.1 = c.1 ∧ h.2.1 = c.2.1 ∧ ∃ t, h.2.2 = c.2.2 ++ t := by
  intro rest
  induction rest with
  | nil =>
    intro prev ll rl c hunks hs hm
    simp only [hunkAux, Option.toList, Option.some.injEq] at hm
    subst hm
    exact ⟨c, by simp, rfl, rfl, [], by simp⟩
  | cons line rest ih =>
    intro prev ll rl c hunks hs hm
    obtain ⟨l, r, ops⟩ := c
    cases line with
    | Left a =>
      simp only [hunkAux, appendCur] at hm
      obtain ⟨h, hmem, h1, h2, t, ht⟩ := ih _ _ _ _ _ _ hm
      exact ⟨h, hmem, h1, h2, .Left a :: t, by simpa using ht⟩
    | Right a =>
      simp only [hunkAux, appendCur] at hm
      obtain ⟨h, hmem, h1, h2, t, ht⟩ := ih _ _ _ _ _ _ hm
      exact ⟨h, hmem, h1, h2, .Right a :: t, by simpa using ht⟩
    | Both a b =>
      simp only [hunkAux, appendCur] at hm
      by_cases hf : ((DiffRes.Both a b :: rest).take (extra + 1)).any isDifferent = true
      · rw [if_pos hf] at hm
        obtain ⟨h, hmem, h1, h2, t, ht⟩ := ih _ _ _ _ _ _ hm
        exact ⟨h, hmem, h1, h2, .Both a b :: t, by simpa using ht⟩
      · rw [if_neg hf] at hm
        by_cases hb : (prev.take extra).any isDifferent = true
        · rw [if_pos hb] at hm
          obtain ⟨h, hmem, h1, h2, t, ht⟩ := ih _ _ _ _ _ _ hm
          exact ⟨h, hmem, h1, h2, .Both a b :: t, by simpa using ht⟩
        · rw [if_neg hb] at hm
          obtain ⟨tail, htail⟩ := haux_mono extra _ _ _ _ _ _ _ hm
          refine ⟨(l, r, ops), ?_, rfl, rfl, [], by simp⟩
          rw [htail]
          simp

theorem haux_tail {α : Type} (extra : Nat) (Q : DiffRes α → Prop) :
    ∀ (rest prev : List (DiffRes α)) (ll rl : Nat) (cur : Option (HunkAcc α))
      (hunks hs : List (HunkAcc α)),
    hunkAux extra prev rest ll rl cur hunks = some hs →
    (∀ x ∈ curOps cur, Q x) →
    (∀ x ∈ rest, Q x) →
    ∃ tail, hs = hunks ++ tail ∧ ∀ h ∈ tail, ∀ x ∈ h.2.2, Q x := by
  intro rest
  induction rest with
  | nil =>
    intro prev ll rl cur hunks hs hm hq _
    simp only [hunkAux, Option.some.injEq] at hm
    subst hm
    refine ⟨cur.toList, rfl, ?_⟩
    intro h hh x hx
    cases cur with
    | none => simp at hh
    | some c =>
      simp at hh
      subst hh
      exact hq x (by simpa [curOps] using hx)
  | cons line rest ih =>
    intro prev ll rl cur hunks hs hm hq hr
    have hqline : Q line := hr line (by simp)
    have hrrest : ∀ x ∈ rest, Q x := fun x hx => hr x (by simp [hx])
    have hq' : ∀ x ∈ curOps (some (appendCur ll rl line cur)), Q x := by
      intro x hx
      rw [curOps_appendCur] at hx
      rcases List.mem_append.mp hx with h | h
      · exact hq x h
      · simp at h
        subst h
        exact hqline
    cases line with
    | Left a =>
      simp only [hunkAux] at hm
      exact ih _ _ _ _ _ _ hm hq' hrrest
    | Right a =>
      simp only [hunkAux] at hm
      exact ih _ _ _ _ _ _ hm hq' hrrest
    | Both a b =>
      simp only [hunkAux] at hm
      by_cases hf : ((DiffRes.Both a b :: rest).take (extra + 1)).any isDifferent = true
      · rw [if_pos hf] at hm
        exact ih _ _ _ _ _ _ hm hq' hrrest
      · rw [if_neg hf] at hm
        by_cases hb : (prev.take extra).any isDifferent = true
        · rw [if_pos hb] at hm
          cases cur with
          | none => exact absurd hm (by simp)
          | some c =>
            obtain ⟨l, r, ops⟩ := c
            have hq'' : ∀ x ∈ curOps (some (l, r, ops ++ [DiffRes.Both a b])), Q x := by
              intro x hx
              simp only [curOps] at hx
              rcases List.mem_append.mp hx with h | h
              · exact hq x (by simpa [curOps] using h)
              · simp at h
                subst h
                exact hqline
            exact ih _ _ _ _ _ _ hm hq'' hrrest
        · rw [if_neg hb] at hm
          obtain ⟨tail, htail, htq⟩ := ih _ _ _ _ _ _ hm (by simp [curOps]) hrrest
          refine ⟨cur.toList ++ tail, by simp [htail], ?_⟩
          intro h hh x hx
          rcases List.mem_append.mp hh with h1 | h1
          · cases cur with
            | none => simp at h1
            | some c =>
              simp at h1
              subst h1
              exact hq x (by simpa [curOps] using hx)
          · exact htq h h1 x hx

theorem haux_nochange {α : Type} (extra : Nat) :
    ∀ (rest prev : List (DiffRes α)) (ll rl : Nat) (hunks : List (HunkAcc α)),
    (∀ x ∈ rest, isDifferent x = false) →
    (∀ x ∈ prev, isDifferent x = false) →
    hunkAux extra prev rest ll rl none hunks = some hunks := by
  intro rest
  induction rest with
  | nil =>
    intro prev ll rl hunks _ _
    simp [hunkAux]
  | cons line rest ih =>
    intro prev ll rl hunks hr hp
    cases line with
    | Left a => simpa [isDifferent] using hr (.Left a) (by simp)
    | Right a => simpa [isDifferent] using hr (.Right a) (by simp)
    | Both a b =>
      have hf : ((DiffRes.Both a b :: rest).take (extra + 1)).any isDifferent = false := by
        rw [List.any_eq_false]
        intro x hx
        simp [hr x (List.take_subset _ _ hx)]
      have hb : (prev.take extra).any isDifferent = false := by
        rw [List.any_eq_false]
        intro x hx
        simp [hp x (List.take_subset _ _ hx)]
      simp only [hunkAux, hf, hb]
      simp only [Bool.false_eq_true, if_false, Option.toList_none, List.append_nil]
      apply ih
      · exact fun x hx => hr x (by simp [hx])
      · intro x hx
        rcases List.mem_cons.mp hx with h | h
        · subst h; rfl
        · exact hp x h

theorem haux_ord {α : Type} (extra : Nat) :
    ∀ (rest prev : List (DiffRes α)) (ll rl : Nat) (cur : Option (HunkAcc α))
      (hunks hs : List (HunkAcc α)),
    hunkAux extra prev rest ll rl cur hunks = some hs →
    hunks.Pairwise hunkLt →
    (∀ c, cur = some c → (∀ h ∈ hunks, hunkLt h c) ∧ c.1 ≤ ll ∧ c.2.1 ≤ rl) →
    (cur = none → ∀ h ∈ hunks, h.1 < ll ∧ h.2.1 < rl) →
    hs.Pairwise hunkLt := by
  intro rest
  induction rest with
  | nil =>
    intro prev ll rl cur hunks hs hm hp hcur _
    simp only [hunkAux, Option.some.injEq] at hm
    subst hm
    cases cur with
    | none => simpa using hp
    | some c =>
      simp only [Option.toList_some]
      rw [List.pairwise_append]
      refine ⟨hp, by simp, ?_⟩
      intro h hh b hb
      have hb' : b = c := by simpa using hb
      rw [hb']
      exact (hcur c rfl).1 h hh
  | cons line rest ih =>
    intro prev ll rl cur hunks hs hm hp hcur hnone
    have happend : ∀ lln rln, ll ≤ lln → rl ≤ rln →
        (∀ c', some (appendCur ll rl line cur) = some c' →
          (∀ h ∈ hunks, hunkLt h c') ∧ c'.1 ≤ lln ∧ c'.2.1 ≤ rln) := by
      intro lln rln hlln hrln c' hc'
      simp only [Option.some.injEq] at hc'
      subst hc'
      cases cur with
      | none =>
        simp only [appendCur]
        exact ⟨fun h hh => hnone rfl h hh, le_trans le_rfl hlln, hrln⟩
      | some c0 =>
        obtain ⟨l0, r0, ops0⟩ := c0
        simp only [appendCur]
        obtain ⟨hlt, hb1, hb2⟩ := hcur (l0, r0, ops0) rfl
        exact ⟨hlt, le_trans hb1 hlln, le_trans hb2 hrln⟩
    cases line with
    | Left a =>
      simp only [hunkAux] at hm
      exact ih _ _ _ _ _ _ hm hp (happend (ll + 1) rl (by omega) le_rfl) (by simp)
    | Right a =>
      simp only [hunkAux] at hm
      exact ih _ _ _ _ _ _ hm hp (happend ll (rl + 1) le_rfl (by omega)) (by simp)
    | Both a b =>
      simp only [hunkAux] at hm
      by_cases hf : ((DiffRes.Both a b :: rest).take (extra + 1)).any isDifferent = true
      · rw [if_pos hf] at hm
        exact ih _ _ _ _ _ _ hm hp (happend (ll + 1) (rl + 1) (by omega) (by omega))
          (by simp)
      · rw [if_neg hf] at hm
        by_cases hb : (prev.take extra).any isDifferent = true
        · rw [if_pos hb] at hm
          cases cur with
          | none => exact absurd hm (by simp)
          | some c =>
            obtain ⟨l0, r0, ops0⟩ := c
            refine ih _ _ _ _ _ _ hm hp ?_ (by simp)
            intro c' hc'
            simp only [Option.some.injEq] at hc'
            subst hc'
            obtain ⟨hlt, hb1, hb2⟩ := hcur (l0, r0, ops0) rfl
            refine ⟨hlt, ?_, ?_⟩
            · show l0 ≤ ll + 1
              simp only [] at hb1
              omega
            · show r0 ≤ rl + 1
              simp only [] at hb2
              omega
        · rw [if_neg hb] at hm
          refine ih _ _ _ _ _ _ hm ?_ (by simp) ?_
          · cases cur with
            | none => simpa using hp
            | some c =>
              simp only [Option.toList_some]
              rw [List.pairwise_append]
              refine ⟨hp, by simp, ?_⟩
              intro h hh b2 hb2
              have hb2' : b2 = c := by simpa using hb2
              rw [hb2']
              exact (hcur c rfl).1 h hh
          · intro _ h hh
            rcases List.mem_append.mp hh with h1 | h1
            · cases cur with
              | none =>
                obtain ⟨ha1, ha2⟩ := hnone rfl h h1
                exact ⟨by omega, by omega⟩
              | some c =>
                obtain ⟨hlt, hb1, hb2⟩ := hcur c rfl
                obtain ⟨hx1, hx2⟩ := hlt h h1
                exact ⟨by omega, by omega⟩
            · cases cur with
              | none => simp at h1
              | some c =>
                have h1' : h = c := by simpa using h1
                rw [h1']
                obtain ⟨hlt, hb1, hb2⟩ := hcur c rfl
                exact ⟨by omega, by omega⟩

/-- The window test hunkify_diff applies at the head of rest: a change in
the forward window (the head and the extra lines after it) or in the
backward window (the extra lines before the head, prev being reversed). -/
def inHunkWin {α : Type} (extra : Nat) (prev rest : List (DiffRes α)) : Bool :=
  (rest.take (extra + 1)).any isDifferent || (prev.take extra).any isDifferent

theorem haux_merge {α : Type} (extra : Nat) :
    ∀ (rest prev : List (DiffRes α)) (ll rl : Nat) (cur : Option (HunkAcc α))
      (hunks hs : List (HunkAcc α)) (j : Nat),
    j < rest.length →
    (∀ k, k ≤ j → inHunkWin extra ((rest.take k).reverse ++ prev) (rest.drop k) = true) →
    hunkInv extra prev cur →
    hunkAux extra prev rest ll rl cur hunks = some hs →
    ∃ h ∈ hs, ∃ t, h.2.2 = curOps cur ++ t ∧
      ∀ (k : Nat) (hk2 : k < rest.length), k ≤ j → rest.get ⟨k, hk2⟩ ∈ t := by
  intro rest
  induction rest with
  | nil =>
    intro prev ll rl cur hunks hs j hj
    simp at hj
  | cons line rest ih =>
    intro prev ll rl cur hunks hs j hj hwin hinv hm
    have main : ∀ (lln rln : Nat),
        hunkAux extra (line :: prev) rest lln rln
          (some (appendCur ll rl line cur)) hunks = some hs →
        ∃ h ∈ hs, ∃ t, h.2.2 = curOps cur ++ t ∧
          ∀ (k : Nat) (hk2 : k < (line :: rest).length), k ≤ j →
            (line :: rest).get ⟨k, hk2⟩ ∈ t := by
      intro lln rln hm'
      cases j with
      | zero =>
        obtain ⟨h, hmem, _, _, t', ht'⟩ := haux_pers extra _ _ _ _ _ _ _ hm'
        rw [appendCur_ops] at ht'
        refine ⟨h, hmem, [line] ++ t', by simpa using ht', ?_⟩
        intro k hk2 hk
        interval_cases k
        simp
      | succ j' =>
        have hwin' : ∀ k, k ≤ j' →
            inHunkWin extra ((rest.take k).reverse ++ (line :: prev))
              (rest.drop k) = true := by
          intro k hk
          have := hwin (k + 1) (by omega)
          simpa [List.reverse_cons, List.append_assoc] using this
        obtain ⟨h, hmem, t'', ht'', hmemt⟩ :=
          ih (line :: prev) lln rln (some (appendCur ll rl line cur)) hunks hs j'
            (by simpa using hj) hwin' (fun _ => rfl) hm'
        rw [curOps_appendCur] at ht''
        refine ⟨h, hmem, line :: t'', by simpa using ht'', ?_⟩
        intro k hk2 hk
        cases k with
        | zero => simp
        | succ k' =>
          have := hmemt k' (by simpa using hk2) (by omega)
          simp only [List.get_cons_succ]
          exact List.mem_cons_of_mem _ this
    cases line with
    | Left a =>
      simp only [hunkAux] at hm
      exact main _ _ hm
    | Right a =>
      simp only [hunkAux] at hm
      exact main _ _ hm
    | Both a b =>
      simp only [hunkAux] at hm
      by_cases hf : ((DiffRes.Both a b :: rest).take (extra + 1)).any isDifferent = true
      · rw [if_pos hf] at hm
        exact main _ _ hm
      · rw [if_neg hf] at hm
        have hb : (prev.take extra).any isDifferent = true := by
          have h0 := hwin 0 (by omega)
          simp only [inHunkWin, List.take_zero, List.reverse_nil, List.nil_append,
            List.drop_zero, Bool.or_eq_true] at h0
          rcases h0 with h0 | h0
          · exact absurd h0 hf
          · exact h0
        rw [if_pos hb] at hm
        cases cur with
        | none => exact absurd (hinv hb) (by simp)
        | some c =>
          obtain ⟨l, r, ops⟩ := c
          exact main _ _ hm

theorem mem_take_mono {β : Type} :
    ∀ (l : List β) (m n : Nat), m ≤ n → ∀ x ∈ l.take m, x ∈ l.take n := by
  intro l
  induction l with
  | nil => simp
  | cons a l ih =>
    intro m n hmn x hx
    cases m with
    | zero => simp at hx
    | succ m' =>
      cases n with
      | zero => omega
      | succ n' =>
        simp only [List.take_succ_cons, List.mem_cons] at hx ⊢
        rcases hx with h | h
        · exact Or.inl h
        · exact Or.inr (ih m' n' (by omega) x h)

theorem take_succ_eq {β : Type} (l : List β) (p : Nat) (hp : p < l.length) :
    l.take (p + 1) = l.take p ++ [l.get ⟨p, hp⟩] := by
  have := List.take_concat_get l p (by simpa using hp)
  simpa [List.concat_eq_append] using this.symm

theorem drop_get_cons {β : Type} (l : List β) (p : Nat) (hp : p < l.length) :
    l.drop p = l.get ⟨p, hp⟩ :: l.drop (p + 1) := by
  simpa using List.drop_eq_getElem_cons (by simpa using hp)

theorem haux_adv {α : Type} (extra : Nat) (d : List (DiffRes α)) :
    ∀ p, p ≤ d.length →
    ∃ (ll rl : Nat) (cur : Option (HunkAcc α)) (hunks : List (HunkAcc α)),
      hunkAux extra [] d 1 1 none [] =
        hunkAux extra ((d.take p).reverse) (d.drop p) ll rl cur hunks ∧
      hunkInv extra ((d.take p).reverse) cur ∧
      (∀ h ∈ hunks, ∀ x ∈ h.2.2, x ∈ d.take p) ∧
      (∀ x ∈ curOps cur, x ∈ d.take p) ∧
      changesOf (hunkOps hunks ++ curOps cur) = changesOf (d.take p) := by
  intro p
  induction p with
  | zero =>
    intro _
    refine ⟨1, 1, none, [], by simp, ?_, by simp, by simp [curOps], by simp [hunkOps, curOps, changesOf]⟩
    intro h
    simp at h
  | succ p ih =>
    intro hp1
    have hp : p < d.length := by omega
    obtain ⟨ll, rl, cur, hunks, heq, hinv, hhtake, hctake, hcov⟩ := ih (by omega)
    set x := d.get ⟨p, hp⟩ with hxdef
    have hdrop : d.drop p = x :: d.drop (p + 1) := drop_get_cons d p hp
    have htake : d.take (p + 1) = d.take p ++ [x] := take_succ_eq d p hp
    have hprev : (d.take (p + 1)).reverse = x :: (d.take p).reverse := by
      rw [htake]
      simp
    rw [hdrop] at heq
    have hsubtake : ∀ y, y ∈ d.take p → y ∈ d.take (p + 1) :=
      fun y hy => mem_take_mono d p (p + 1) (by omega) y hy
    have hxmem : x ∈ d.take (p + 1) := by
      rw [htake]
      simp
    -- the three branch shapes that append the line to an open or new hunk
    have hstep_append : ∀ (lln rln : Nat) (cur' : HunkAcc α),
        curOps (some cur') = curOps cur ++ [x] →
        hunkAux extra ((d.take p).reverse) (x :: d.drop (p + 1)) ll rl cur hunks =
          hunkAux extra ((d.take (p + 1)).reverse) (d.drop (p + 1)) lln rln
            (some cur') hunks →
        ∃ (ll' rl' : Nat) (cur2 : Option (HunkAcc α)) (hunks2 : List (HunkAcc α)),
          hunkAux extra [] d 1 1 none [] =
            hunkAux extra ((d.take (p + 1)).reverse) (d.drop (p + 1)) ll' rl' cur2 hunks2 ∧
          hunkInv extra ((d.take (p + 1)).reverse) cur2 ∧
          (∀ h ∈ hunks2, ∀ y ∈ h.2.2, y ∈ d.take (p + 1)) ∧
          (∀ y ∈ curOps cur2, y ∈ d.take (p + 1)) ∧
          changesOf (hunkOps hunks2 ++ curOps cur2) = changesOf (d.take (p + 1)) := by
      intro lln rln cur' hops hstep
      refine ⟨lln, rln, some cur', hunks, heq.trans hstep, fun _ => rfl, ?_, ?_, ?_⟩
      · intro h hh y hy
        exact hsubtake y (hhtake h hh y hy)
      · intro y hy
        rw [hops] at hy
        rcases List.mem_append.mp hy with h | h
        · exact hsubtake y (hctake y h)
        · simp at h
          subst h
          exact hxmem
      · rw [hops, htake]
        calc changesOf (hunkOps hunks ++ (curOps cur ++ [x]))
            = changesOf (hunkOps hunks ++ curOps cur) ++ changesOf [x] := by
              simp [changesOf_append]
          _ = changesOf (d.take p) ++ changesOf [x] := by rw [hcov]
          _ = changesOf (d.take p ++ [x]) := by simp [changesOf_append]
    cases hxcase : x with
    | Left a =>
      refine hstep_append (ll + 1) rl (appendCur ll rl x cur) (by rw [curOps_appendCur]) ?_
      rw [hprev, hxcase]
      simp only [hunkAux]
    | Right a =>
      refine hstep_append ll (rl + 1) (appendCur ll rl x cur) (by rw [curOps_appendCur]) ?_
      rw [hprev, hxcase]
      simp only [hunkAux]
    | Both a b =>
      by_cases hf : ((DiffRes.Both a b :: d.drop (p + 1)).take (extra + 1)).any
          isDifferent = true
      · refine hstep_append (ll + 1) (rl + 1) (appendCur ll rl x cur)
          (by rw [curOps_appendCur]) ?_
        rw [hprev, hxcase]
        simp only [hunkAux]
        rw [if_pos hf]
      · by_cases hbk : (((d.take p).reverse).take extra).any isDifferent = true
        · have hsome := hinv hbk
          cases hcur : cur with
          | none => rw [hcur] at hsome; simp at hsome
          | some c =>
            obtain ⟨l0, r0, ops0⟩ := c
            refine hstep_append (ll + 1) (rl + 1) (l0, r0, ops0 ++ [x])
              (by simp [curOps, hcur]) ?_
            rw [hprev, hxcase, hcur]
            simp only [hunkAux]
            rw [if_neg hf, if_pos hbk]
        · refine ⟨ll + 1, rl + 1, none, hunks ++ cur.toList, ?_, ?_, ?_, by simp [curOps], ?_⟩
          · rw [heq, hprev, hxcase]
            simp only [hunkAux]
            rw [if_neg hf, if_neg hbk]
          · intro hany
            rw [hprev] at hany
            exfalso
            cases extra with
            | zero => simp at hany
            | succ e =>
              simp only [List.take_succ_cons, List.any_cons, Bool.or_eq_true] at hany
              rcases hany with h | h
              · rw [hxcase] at h
                simp [isDifferent] at h
              · rw [List.any_eq_true] at h
                obtain ⟨y, hy, hyd⟩ := h
                have : y ∈ ((d.take p).reverse).take (e + 1) :=
                  mem_take_mono _ e (e + 1) (by omega) y hy
                have : (((d.take p).reverse).take (e + 1)).any isDifferent = true :=
                  List.any_eq_true.mpr ⟨y, this, hyd⟩
                exact absurd this (by simpa using hbk)
          · intro h hh y hy
            rcases List.mem_append.mp hh with h1 | h1
            · exact hsubtake y (hhtake h h1 y hy)
            · cases hcur : cur with
              | none => rw [hcur] at h1; simp at h1
              | some c =>
                rw [hcur] at h1
                simp at h1
                subst h1
                exact hsubtake y (hctake y (by simpa [curOps, hcur] using hy))
          · rw [hunkOps_toList, htake]
            calc changesOf ((hunkOps hunks ++ curOps cur) ++ curOps (none : Option (HunkAcc α)))
                = changesOf (hunkOps hunks ++ curOps cur) := by simp [curOps]
              _ = changesOf (d.take p) := hcov
              _ = changesOf (d.take p ++ [x]) := by
                  rw [changesOf_append]
                  rw [hxcase]
                  simp [changesOf, isDifferent]

theorem get_mem_drop_take {β : Type} (l : List β) (p n m : Nat) (hm : m < l.length)
    (h1 : p ≤ m) (h2 : m < p + n) : l.get ⟨m, hm⟩ ∈ (l.drop p).take n := by
  have hlen : m - p < ((l.drop p).take n).length := by
    simp only [List.length_take, List.length_drop]
    omega
  have hget : ((l.drop p).take n).get ⟨m - p, hlen⟩ = l.get ⟨m, hm⟩ := by
    have hd : m - p < (l.drop p).length := by
      simp only [List.length_drop]
      omega
    calc ((l.drop p).take n).get ⟨m - p, hlen⟩
        = (l.drop p).get ⟨m - p, hd⟩ := by
          simp [List.getElem_take]
      _ = l.get ⟨m, hm⟩ := by
          simp only [List.get_eq_getElem, List.getElem_drop]
          congr 1
          omega
  rw [← hget]
  exact List.get_mem _ _ _

theorem mem_drop_take_get {β : Type} (l : List β) (p n : Nat) (y : β)
    (hy : y ∈ (l.drop p).take n) :
    ∃ (m : Nat) (hm : m < l.length), p ≤ m ∧ m < p + n ∧ y = l.get ⟨m, hm⟩ := by
  obtain ⟨⟨q, hq⟩, hget⟩ := List.mem_iff_get.mp hy
  have hq1 : q < n := by
    have := hq
    simp only [List.length_take] at this
    omega
  have hq2 : q < (l.drop p).length := by
    have := hq
    simp only [List.length_take] at this
    omega
  have hq3 : p + q < l.length := by
    simp only [List.length_drop] at hq2
    omega
  refine ⟨p + q, hq3, by omega, by omega, ?_⟩
  rw [← hget]
  calc ((l.drop p).take n).get ⟨q, hq⟩
      = (l.drop p).get ⟨q, hq2⟩ := by simp [List.getElem_take]
    _ = l.get ⟨p + q, hq3⟩ := by simp [List.getElem_drop]

theorem get_mem_rev_take {β : Type} (l : List β) (m ext i : Nat) (hm : m ≤ l.length)
    (hi : i < m) (hext : m ≤ i + ext) (h : i < l.length) :
    l.get ⟨i, h⟩ ∈ ((l.take m).reverse).take ext := by
  have hlt : m - 1 - i < ((l.take m).reverse).length := by
    simp only [List.length_reverse, List.length_take]
    omega
  have hlen : m - 1 - i < (((l.take m).reverse).take ext).length := by
    simp only [List.length_take, List.length_reverse]
    omega
  have hgt : (((l.take m).reverse).take ext).get ⟨m - 1 - i, hlen⟩ = l.get ⟨i, h⟩ := by
    have hit : i < (l.take m).length := by
      simp only [List.length_take]
      omega
    calc (((l.take m).reverse).take ext).get ⟨m - 1 - i, hlen⟩
        = ((l.take m).reverse).get ⟨m - 1 - i, hlt⟩ := by simp [List.getElem_take]
      _ = (l.take m).get ⟨i, hit⟩ := by
          simp only [List.get_eq_getElem, List.getElem_reverse]
          congr 1
          simp only [List.length_take]
          omega
      _ = l.get ⟨i, h⟩ := by simp [List.getElem_take]
  rw [← hgt]
  exact List.get_mem _ _ _

theorem mem_rev_take_get {β : Type} (l : List β) (m ext : Nat) (y : β) (hm : m ≤ l.length)
    (hy : y ∈ ((l.take m).reverse).take ext) :
    ∃ (q : Nat) (hq : q < l.length), q < m ∧ m ≤ q + ext ∧ y = l.get ⟨q, hq⟩ := by
  obtain ⟨⟨r, hr⟩, hget⟩ := List.mem_iff_get.mp hy
  have hr1 : r < ext := by
    have := hr
    simp only [List.length_take, List.length_reverse] at this
    omega
  have hr2 : r < (l.take m).length := by
    have := hr
    simp only [List.length_take, List.length_reverse] at this
    simp only [List.length_take]
    omega
  have hrm : r < m := by
    simp only [List.length_take] at hr2
    omega
  have hq3 : m - 1 - r < l.length := by omega
  refine ⟨m - 1 - r, hq3, by omega, by omega, ?_⟩
  rw [← hget]
  have hrev : r < ((l.take m).reverse).length := by
    simp only [List.length_reverse]
    exact hr2
  have hq4 : m - 1 - r < (l.take m).length := by
    simp only [List.length_take]
    omega
  calc (((l.take m).reverse).take ext).get ⟨r, hr⟩
      = ((l.take m).reverse).get ⟨r, hrev⟩ := by simp [List.getElem_take]
    _ = (l.take m).get ⟨m - 1 - r, hq4⟩ := by
        simp only [List.get_eq_getElem, List.getElem_reverse]
        congr 1
        simp only [List.length_take]
        omega
    _ = l.get ⟨m - 1 - r, hq3⟩ := by simp [List.getElem_take]

theorem tagOf_retag {α : Type} (p : Nat) (x : DiffRes α) : tagOf (retag p x) = p := by
  cases x <;> rfl

theorem isDifferent_retag {α : Type} (p : Nat) (x : DiffRes α) :
    isDifferent (retag p x) = isDifferent x := by
  cases x <;> rfl

theorem indexFrom_length {α : Type} : ∀ (l : List (DiffRes α)) (q : Nat),
    (indexFrom q l).length = l.length := by
  intro l
  induction l with
  | nil => intro q; rfl
  | cons x xs ih => intro q; simp [indexFrom, ih]

theorem indexFrom_get {α : Type} : ∀ (l : List (DiffRes α)) (q k : Nat)
    (hk : k < (indexFrom q l).length) (hk' : k < l.length),
    (indexFrom q l).get ⟨k, hk⟩ = retag (q + k) (l.get ⟨k, hk'⟩) := by
  intro l
  induction l with
  | nil => intro q k hk hk'; simp at hk'
  | cons x xs ih =>
    intro q k hk hk'
    cases k with
    | zero => simp [indexFrom]
    | succ k' =>
      have hk2 : k' < xs.length := by
        simp only [List.length_cons] at hk'
        omega
      have hk3 : k' < (indexFrom (q + 1) xs).length := by
        rw [indexFrom_length]
        exact hk2
      simp only [indexFrom, List.get_cons_succ]
      rw [ih (q + 1) k' hk3 hk2]
      congr 1
      omega

theorem indexFrom_take {α : Type} : ∀ (l : List (DiffRes α)) (q n : Nat),
    (indexFrom q l).take n = indexFrom q (l.take n) := by
  intro l
  induction l with
  | nil => intro q n; simp [indexFrom]
  | cons x xs ih =>
    intro q n
    cases n with
    | zero => simp [indexFrom]
    | succ n' => simp [indexFrom, ih]

theorem indexFrom_drop {α : Type} : ∀ (l : List (DiffRes α)) (q n : Nat),
    (indexFrom q l).drop n = indexFrom (q + n) (l.drop n) := by
  intro l
  induction l with
  | nil => intro q n; simp [indexFrom]
  | cons x xs ih =>
    intro q n
    cases n with
    | zero => simp [indexFrom]
    | succ n' =>
      simp only [indexFrom, List.drop_succ_cons, ih]
      congr 1
      omega

theorem mem_indexFrom {α : Type} : ∀ (l : List (DiffRes α)) (q : Nat)
    (x : DiffRes (α × Nat)), x ∈ indexFrom q l →
    q ≤ tagOf x ∧ tagOf x < q + l.length := by
  intro l
  induction l with
  | nil => intro q x hx; simp [indexFrom] at hx
  | cons y ys ih =>
    intro q x hx
    simp only [indexFrom, List.mem_cons] at hx
    rcases hx with h | h
    · subst h
      rw [tagOf_retag]
      simp
    · obtain ⟨h1, h2⟩ := ih (q + 1) x h
      constructor
      · omega
      · simp only [List.length_cons]
        omega

theorem diff_nonempty_eq_any {α : Type} :
    ∀ d : List (DiffRes α), diff_nonempty d = d.any isDifferent := by
  intro d
  induction d with
  | nil => rfl
  | cons x rest ih => cases x <;> simp [diff_nonempty, isDifferent, ih]

theorem changesOf_nil_iff {α : Type} (d : List (DiffRes α)) :
    changesOf d = [] ↔ diff_nonempty d = false := by
  rw [diff_nonempty_eq_any, changesOf, List.filter_eq_nil_iff, List.any_eq_false]

theorem hunkify_total {α : Type} (d : List (DiffRes α)) (extra : Nat) :
    ∃ hs, hunkify_diff d extra = some hs := by
  obtain ⟨ll, rl, cur, hunks, heq, _, _, _, _⟩ := haux_adv extra d d.length le_rfl
  rw [List.drop_length] at heq
  refine ⟨hunks ++ cur.toList, ?_⟩
  rw [hunkify_diff, heq]
  simp [hunkAux]

/-- C10: on a line diff with no changed operation, hunkify_diff is total and
returns the empty hunk list (it never opens a hunk), and print_diff, whose
expect requires at least one hunk, panics exactly on such inputs: its pop of
the last hunk fails iff the input diff has no changed operation. -/
theorem hunkify_total_empty_and_print_panic {α : Type} (d : List (DiffRes α))
    (extra : Nat) :
    (hunkify_diff d extra = some [] ↔ diff_nonempty d = false) ∧
    (print_diff d extra = none ↔ diff_nonempty d = false) := by
  obtain ⟨hs, hh⟩ := hunkify_total d extra
  have hh' : hunkAux extra [] d 1 1 none [] = some hs := by
    rw [← hunkify_diff]
    exact hh
  have hcov := haux_cov extra d [] 1 1 none [] hs hh'
  simp only [hunkOps, List.map_nil, List.flatten_nil, curOps, changesOf,
    List.filter_nil, List.nil_append] at hcov
  have h1 : hunkify_diff d extra = some [] ↔ diff_nonempty d = false := by
    constructor
    · intro h
      have hseq : hs = [] := by
        have := hh.symm.trans h
        simpa using this
      subst hseq
      rw [← changesOf_nil_iff, changesOf, ← hcov]
      simp
    · intro h
      have hall : ∀ x ∈ d, isDifferent x = false := by
        rw [diff_nonempty_eq_any] at h
        exact fun x hx => by simpa using List.any_eq_false.mp h x hx
      rw [hunkify_diff]
      exact haux_nochange extra d [] 1 1 [] hall (by simp)
  refine ⟨h1, ?_⟩
  constructor
  · intro h
    cases hseq : hs with
    | nil =>
      apply h1.mp
      rw [hh, hseq]
    | cons a as =>
      exfalso
      rw [print_diff, hh, hseq] at h
      dsimp only at h
      cases hgl : (a :: as).getLast? with
      | none =>
        have hne2 : (a :: as) ≠ ([] : List (HunkAcc α)) := by simp
        rw [← List.getLast?_isSome, hgl] at hne2
        simp at hne2
      | some last =>
        rw [hgl] at h
        simp at h
  · intro h
    have h2 := h1.mpr h
    rw [print_diff, h2]
    simp

/-- C2: for every line diff with at least one changed operation, hunkify_diff
succeeds, emits at least one hunk, the changed operations collected across
the hunks in emission order are exactly the changed operations of the input
in input order (so every changed operation is in exactly one emitted hunk),
and the hunks are emitted with strictly increasing left and right start line
numbers, i.e. in increasing input-position order. -/
theorem hunkify_coverage_and_order {α : Type} (d : List (DiffRes α)) (extra : Nat)
    (hne : diff_nonempty d = true) :
    ∃ hs, hunkify_diff d extra = some hs ∧ hs ≠ [] ∧
      changesOf (hunkOps hs) = changesOf d ∧
      hs.Chain' hunkLt := by
  obtain ⟨hs, hh⟩ := hunkify_total d extra
  have hh' : hunkAux extra [] d 1 1 none [] = some hs := by
    rw [← hunkify_diff]
    exact hh
  have hcov := haux_cov extra d [] 1 1 none [] hs hh'
  simp only [hunkOps, List.map_nil, List.flatten_nil, curOps, changesOf,
    List.filter_nil, List.nil_append] at hcov
  have hord := haux_ord extra d [] 1 1 none [] hs hh' (by simp)
    (by intro c hc; exact absurd hc (by simp))
    (by intro _ h hh2; simp at hh2)
  refine ⟨hs, hh, ?_, hcov, hord.chain'⟩
  intro hnil
  subst hnil
  have : changesOf (d : List (DiffRes α)) = [] := by
    rw [changesOf, ← hcov]
    simp
  rw [changesOf_nil_iff] at this
  rw [hne] at this
  exact absurd this (by simp)

/-- Witness for C2 at a concrete one-change diff with context width 0. -/
theorem hunkify_coverage_and_order_witness :
    ∃ hs, hunkify_diff [DiffRes.Left "a", DiffRes.Both "b" "b"] 0 = some hs ∧
      hs ≠ [] ∧
      changesOf (hunkOps hs) =
        changesOf [DiffRes.Left "a", DiffRes.Both "b" "b"] ∧
      hs.Chain' hunkLt :=
  hunkify_coverage_and_order [DiffRes.Left "a", DiffRes.Both "b" "b"] 0 (by decide)

theorem index_get {α : Type} (d : List (DiffRes α)) (k : Nat)
    (hk : k < (index d).length) (hk' : k < d.length) :
    (index d).get ⟨k, hk⟩ = retag k (d.get ⟨k, hk'⟩) := by
  simp only [index] at hk ⊢
  rw [indexFrom_get d 0 k hk hk']
  congr 1
  omega

theorem index_length {α : Type} (d : List (DiffRes α)) :
    (index d).length = d.length := indexFrom_length d 0

theorem drop_get_eq {β : Type} (l : List β) (p k m : Nat)
    (hk : k < (l.drop p).length) (hm : m < l.length) (heq : p + k = m) :
    (l.drop p).get ⟨k, hk⟩ = l.get ⟨m, hm⟩ := by
  subst heq
  simp only [List.get_eq_getElem, List.getElem_drop]

/-- C1: in the hunk engine applied to a position-tagged diff, two changed
operations at positions i and j separated only by Both operations are placed
in the same emitted hunk when the gap holds fewer than 2*context+1 Both
operations (the open hunk persists across the gap), and in distinct emitted
hunks when the gap holds 2*context+1 or more Both operations (the Both at
position i+context+1 closes the hunk): each is in some hunk, and no single
hunk contains both. -/
theorem hunkify_context_merge_and_split {α : Type} (d : List (DiffRes α)) (extra i j : Nat)
    (hi : i < d.length) (hj : j < d.length) (hij : i < j)
    (hci : isDifferent (d.get ⟨i, hi⟩) = true)
    (hcj : isDifferent (d.get ⟨j, hj⟩) = true)
    (hmid : ∀ (k : Nat) (hk : k < d.length), i < k → k < j →
      isDifferent (d.get ⟨k, hk⟩) = false) :
    ∃ hs, hunkify_diff (index d) extra = some hs ∧
      (j - i - 1 < 2 * extra + 1 →
        ∃ h ∈ hs, (∃ x ∈ h.2.2, tagOf x = i) ∧ (∃ x ∈ h.2.2, tagOf x = j)) ∧
      (2 * extra + 1 ≤ j - i - 1 →
        (∃ h ∈ hs, ∃ x ∈ h.2.2, tagOf x = i) ∧
        (∃ h ∈ hs, ∃ x ∈ h.2.2, tagOf x = j) ∧
        (∀ h ∈ hs, ¬((∃ x ∈ h.2.2, tagOf x = i) ∧ (∃ x ∈ h.2.2, tagOf x = j)))) := by
  have hlen : (index d).length = d.length := index_length d
  have hi' : i < (index d).length := by omega
  have hj' : j < (index d).length := by omega
  have hciD : isDifferent ((index d).get ⟨i, hi'⟩) = true := by
    rw [index_get d i hi' hi, isDifferent_retag]
    exact hci
  have hcjD : isDifferent ((index d).get ⟨j, hj'⟩) = true := by
    rw [index_get d j hj' hj, isDifferent_retag]
    exact hcj
  have hmidD : ∀ (k : Nat) (hk : k < (index d).length), i < k → k < j →
      isDifferent ((index d).get ⟨k, hk⟩) = false := by
    intro k hk h1 h2
    have hk2 : k < d.length := by omega
    rw [index_get d k hk hk2, isDifferent_retag]
    exact hmid k hk2 h1 h2
  have htagi : tagOf ((index d).get ⟨i, hi'⟩) = i := by
    rw [index_get d i hi' hi, tagOf_retag]
  have htagj : tagOf ((index d).get ⟨j, hj'⟩) = j := by
    rw [index_get d j hj' hj, tagOf_retag]
  obtain ⟨hs, hh⟩ := hunkify_total (index d) extra
  have hh' : hunkAux extra [] (index d) 1 1 none [] = some hs := by
    rw [← hunkify_diff]
    exact hh
  have hcovAll := haux_cov extra (index d) [] 1 1 none [] hs hh'
  simp only [hunkOps, List.map_nil, List.flatten_nil, curOps, changesOf,
    List.filter_nil, List.nil_append] at hcovAll
  refine ⟨hs, hh, ?_, ?_⟩
  · -- merge: gap smaller than 2*extra+1 keeps the hunk open from i to j
    intro hgap
    have hjle : j ≤ i + 2 * extra + 1 := by omega
    obtain ⟨ll, rl, cur, hunks, heq, hinv, _, _, _⟩ :=
      haux_adv extra (index d) i (by omega)
    have hstate : hunkAux extra (((index d).take i).reverse) ((index d).drop i)
        ll rl cur hunks = some hs := by
      rw [← heq]
      exact hh'
    have hwin_main : ∀ m, i ≤ m → m ≤ j →
        inHunkWin extra (((index d).take m).reverse) ((index d).drop m) = true := by
      intro m him hmj
      rw [inHunkWin, Bool.or_eq_true]
      by_cases hfw : j ≤ m + extra
      · refine Or.inl (List.any_eq_true.mpr ⟨(index d).get ⟨j, hj'⟩, ?_, hcjD⟩)
        exact get_mem_drop_take (index d) m (extra + 1) j hj' (by omega) (by omega)
      · by_cases hmi : m = i
        · subst hmi
          refine Or.inl (List.any_eq_true.mpr ⟨(index d).get ⟨m, hi'⟩, ?_, hciD⟩)
          exact get_mem_drop_take (index d) m (extra + 1) m hi' le_rfl (by omega)
        · refine Or.inr (List.any_eq_true.mpr ⟨(index d).get ⟨i, hi'⟩, ?_, hciD⟩)
          exact get_mem_rev_take (index d) m extra i (by omega) (by omega) (by omega) hi'
    obtain ⟨h, hmem, t, htops, hmemt⟩ :=
      haux_merge extra ((index d).drop i) (((index d).take i).reverse) ll rl cur
        hunks hs (j - i)
        (by rw [List.length_drop]; omega)
        (by
          intro k hk
          have hback : (((index d).drop i).take k).reverse ++ ((index d).take i).reverse
              = ((index d).take (i + k)).reverse := by
            rw [List.take_add]
            simp
          have hfwd : ((index d).drop i).drop k = (index d).drop (i + k) := by
            rw [List.drop_drop]
            try (congr 1)
            try omega
          rw [hback, hfwd]
          exact hwin_main (i + k) (by omega) (by omega))
        hinv hstate
    have hrl : j - i < ((index d).drop i).length := by
      rw [List.length_drop]
      omega
    have h0l : 0 < ((index d).drop i).length := by
      rw [List.length_drop]
      omega
    have hei : ((index d).drop i).get ⟨0, h0l⟩ = (index d).get ⟨i, hi'⟩ :=
      drop_get_eq (index d) i 0 i h0l hi' (by omega)
    have hej : ((index d).drop i).get ⟨j - i, hrl⟩ = (index d).get ⟨j, hj'⟩ :=
      drop_get_eq (index d) i (j - i) j hrl hj' (by omega)
    have hmi := hmemt 0 h0l (by omega)
    have hmj := hmemt (j - i) hrl le_rfl
    rw [hei] at hmi
    rw [hej] at hmj
    refine ⟨h, hmem, ⟨(index d).get ⟨i, hi'⟩, ?_, htagi⟩,
      ⟨(index d).get ⟨j, hj'⟩, ?_, htagj⟩⟩
    · rw [htops]
      exact List.mem_append_right _ hmi
    · rw [htops]
      exact List.mem_append_right _ hmj
  · -- split: a closing Both at position i + extra + 1 separates the hunks
    intro hgap
    set k0 := i + extra + 1 with hk0def
    have hk0j : k0 < j := by omega
    have hk0len : k0 < (index d).length := by omega
    obtain ⟨ll, rl, cur, hunks, heq, hinv, hhtake, hctake, hcov⟩ :=
      haux_adv extra (index d) k0 (by omega)
    have hx0d : isDifferent ((index d).get ⟨k0, hk0len⟩) = false :=
      hmidD k0 hk0len (by omega) hk0j
    have hdropk0 : (index d).drop k0 =
        (index d).get ⟨k0, hk0len⟩ :: (index d).drop (k0 + 1) :=
      drop_get_cons (index d) k0 hk0len
    have hf : (((index d).drop k0).take (extra + 1)).any isDifferent = false := by
      rw [List.any_eq_false]
      intro y hy
      obtain ⟨m, hm, hm1, hm2, rfl⟩ := mem_drop_take_get (index d) k0 (extra + 1) y hy
      simp only [Bool.not_eq_true]
      exact hmidD m hm (by omega) (by omega)
    have hbk : ((((index d).take k0).reverse).take extra).any isDifferent = false := by
      rw [List.any_eq_false]
      intro y hy
      obtain ⟨q, hq, hq1, hq2, rfl⟩ :=
        mem_rev_take_get (index d) k0 extra y (by omega) hy
      simp only [Bool.not_eq_true]
      exact hmidD q hq (by omega) (by omega)
    cases hx0c : (index d).get ⟨k0, hk0len⟩ with
    | Left a => rw [hx0c] at hx0d; simp [isDifferent] at hx0d
    | Right a => rw [hx0c] at hx0d; simp [isDifferent] at hx0d
    | Both a b =>
      rw [hx0c] at hdropk0
      have hf' : ((DiffRes.Both a b :: (index d).drop (k0 + 1)).take (extra + 1)).any
          isDifferent = false := by
        rw [← hdropk0]
        exact hf
      have hstep : hunkAux extra (((index d).take k0).reverse) ((index d).drop k0)
          ll rl cur hunks =
          hunkAux extra (DiffRes.Both a b :: ((index d).take k0).reverse)
            ((index d).drop (k0 + 1)) (ll + 1) (rl + 1) none (hunks ++ cur.toList) := by
        rw [hdropk0]
        simp only [hunkAux]
        rw [if_neg (by rw [hf']; simp), if_neg (by rw [hbk]; simp)]
      have hstate2 : hunkAux extra (DiffRes.Both a b :: ((index d).take k0).reverse)
          ((index d).drop (k0 + 1)) (ll + 1) (rl + 1) none (hunks ++ cur.toList) =
          some hs := by
        rw [← hstep, ← heq]
        exact hh'
      obtain ⟨tail, hsplit, htailq⟩ :=
        haux_tail extra (fun y => y ∈ (index d).drop (k0 + 1)) _ _ _ _ _ _ _ hstate2
          (by simp [curOps]) (fun y hy => hy)
      have hHsub : ∀ h ∈ hunks ++ cur.toList, ∀ y ∈ h.2.2, y ∈ (index d).take k0 := by
        intro h hh2 y hy
        rcases List.mem_append.mp hh2 with h1 | h1
        · exact hhtake h h1 y hy
        · cases hcur : cur with
          | none => rw [hcur] at h1; simp at h1
          | some c =>
            rw [hcur] at h1
            simp at h1
            subst h1
            exact hctake y (by simpa [curOps, hcur] using hy)
      have heimem : (index d).get ⟨i, hi'⟩ ∈ (index d).take k0 := by
        have := get_mem_drop_take (index d) 0 k0 i hi' (by omega) (by omega)
        rwa [List.drop_zero] at this
      have hei_changes : (index d).get ⟨i, hi'⟩ ∈
          changesOf ((index d).take k0) := by
        rw [changesOf]
        exact List.mem_filter.mpr ⟨heimem, hciD⟩
      have hei_H : (index d).get ⟨i, hi'⟩ ∈ hunkOps (hunks ++ cur.toList) := by
        rw [hunkOps_toList]
        rw [← hcov] at hei_changes
        exact (List.mem_filter.mp hei_changes).1
      obtain ⟨opsl, hopsl, heiops⟩ := List.mem_flatten.mp (by
        rw [hunkOps] at hei_H
        exact hei_H)
      obtain ⟨h1, hh1, rfl⟩ := List.mem_map.mp hopsl
      have hej_changes : (index d).get ⟨j, hj'⟩ ∈ changesOf (index d) := by
        rw [changesOf]
        exact List.mem_filter.mpr ⟨List.get_mem _ _ _, hcjD⟩
      have hej_hs : (index d).get ⟨j, hj'⟩ ∈ hunkOps hs := by
        rw [hunkOps]
        rw [changesOf] at hej_changes
        have : (index d).get ⟨j, hj'⟩ ∈
            List.filter isDifferent (List.map (fun h => h.2.2) hs).flatten := by
          rw [hcovAll]
          exact hej_changes
        exact (List.mem_filter.mp this).1
      obtain ⟨opsl2, hopsl2, hejops⟩ := List.mem_flatten.mp (by
        rw [hunkOps] at hej_hs
        exact hej_hs)
      obtain ⟨h2, hh2, rfl⟩ := List.mem_map.mp hopsl2
      refine ⟨⟨h1, ?_, (index d).get ⟨i, hi'⟩, heiops, htagi⟩,
        ⟨h2, hh2, (index d).get ⟨j, hj'⟩, hejops, htagj⟩, ?_⟩
      · rw [hsplit]
        exact List.mem_append_left _ hh1
      · rintro h hmem ⟨⟨x, hxops, hxtag⟩, ⟨y, hyops, hytag⟩⟩
        rw [hsplit] at hmem
        rcases List.mem_append.mp hmem with hH | hT
        · have hyk0 : y ∈ (index d).take k0 := hHsub h hH y hyops
          have : y ∈ indexFrom 0 (d.take k0) := by
            rw [← indexFrom_take]
            exact hyk0
          obtain ⟨_, htag2⟩ := mem_indexFrom (d.take k0) 0 y this
          rw [hytag] at htag2
          rw [List.length_take] at htag2
          omega
        · have hxdrop : x ∈ (index d).drop (k0 + 1) := htailq h hT x hxops
          have hidx : (index d).drop (k0 + 1) = indexFrom (k0 + 1) (d.drop (k0 + 1)) := by
            simp only [index]
            rw [indexFrom_drop]
            congr 1
            omega
          have : x ∈ indexFrom (k0 + 1) (d.drop (k0 + 1)) := by
            rw [← hidx]
            exact hxdrop
          obtain ⟨htag1, _⟩ := mem_indexFrom (d.drop (k0 + 1)) (k0 + 1) x this
          rw [hxtag] at htag1
          omega

/-- Witness for C1, split side: with context width 0, changes at positions 0
and 2 separated by one Both land in two distinct hunks. -/
theorem hunkify_context_merge_and_split_witness :
    ∃ hs, hunkify_diff (index [DiffRes.Left "a", DiffRes.Both "c" "c",
        DiffRes.Left "b"]) 0 = some hs ∧
      (2 - 0 - 1 < 2 * 0 + 1 →
        ∃ h ∈ hs, (∃ x ∈ h.2.2, tagOf x = 0) ∧ (∃ x ∈ h.2.2, tagOf x = 2)) ∧
      (2 * 0 + 1 ≤ 2 - 0 - 1 →
        (∃ h ∈ hs, ∃ x ∈ h.2.2, tagOf x = 0) ∧
        (∃ h ∈ hs, ∃ x ∈ h.2.2, tagOf x = 2) ∧
        (∀ h ∈ hs, ¬((∃ x ∈ h.2.2, tagOf x = 0) ∧ (∃ x ∈ h.2.2, tagOf x = 2)))) :=
  hunkify_context_merge_and_split [DiffRes.Left "a", DiffRes.Both "c" "c",
      DiffRes.Left "b"] 0 0 2
    (by decide) (by decide) (by decide) (by decide) (by decide)
    (by
      intro k hk h1 h2
      interval_cases k
      rfl)

/-- Witness for C4: constructing a result where all four comparisons come
out Identical yields the Ok verdict. -/
theorem new_upgrades_all_identical_to_ok_witness :
    RootTestResult.new 0 [] [] 0 [] [] (.File [] ⟨0, 0, 0⟩) (.File [] ⟨0, 0, 0⟩) =
      .Ok :=
  (new_upgrades_all_identical_to_ok 0 [] [] 0 [] [] (.File [] ⟨0, 0, 0⟩)
    (.File [] ⟨0, 0, 0⟩)).1.mpr ⟨rfl, rfl, rfl, rfl⟩

/-- Witness for C10: a two-line all-Both diff yields the empty hunk list and
a print_diff panic. -/
theorem hunkify_total_empty_and_print_panic_witness :
    hunkify_diff [DiffRes.Both "a" "a", DiffRes.Both "b" "b"] 3 = some [] ∧
    print_diff [DiffRes.Both "a" "a", DiffRes.Both "b" "b"] 3 = none := by
  have h := hunkify_total_empty_and_print_panic
    [DiffRes.Both "a" "a", DiffRes.Both "b" "b"] 3
  exact ⟨h.1.mpr (by decide), h.2.mpr (by decide)⟩
